import Mathlib

/-!
Verification of the gxps core data model (spectrum processing, peak
constraint engine, event bus) against its natural-language specification.

The Python sources are shallowly embedded: `float` is modelled as `ℚ`
(exact arithmetic on the finite floats the claims are about), numpy
arrays as lists of rationals, dictionaries as insertion-ordered
association lists, and Python exceptions as `Except PyErr`.  State
mutating methods return a triple (outcome, post state, emitted events)
so that partially-mutated states left behind by an exception stay
observable.
-/

unseal Rat.mul Rat.add Rat.sub Rat.inv

namespace GXPS

/-- Python exception kinds raised by the embedded code.  `parseError`
stands for Python's SyntaxError. -/
inductive PyErr where
  | valueError
  | keyError
  | nameError
  | parseError
  | typeError
  | notImplementedError
  | floatingPointError
  | attributeError
  | indexError
  | zeroDivisionError
deriving DecidableEq, Repr

instance {ε α : Type} [DecidableEq ε] [DecidableEq α] : DecidableEq (Except ε α) := fun a b =>
  match a, b with
  | .ok x, .ok y =>
    if h : x = y then .isTrue (by rw [h]) else .isFalse (by intro hc; cases hc; exact h rfl)
  | .error x, .error y =>
    if h : x = y then .isTrue (by rw [h]) else .isFalse (by intro hc; cases hc; exact h rfl)
  | .ok _, .error _ => .isFalse (by intro hc; cases hc)
  | .error _, .ok _ => .isFalse (by intro hc; cases hc)

/-- Insert into a sorted list, in front of the first element that is
not strictly smaller. -/
def insSorted {α : Type} (le : α → α → Bool) (x : α) : List α → List α
  | [] => [x]
  | y :: s => if le x y then x :: y :: s else y :: insSorted le x s

/-- Stable insertion sort (the guarantee Python's `sorted` and numpy's
stable sorts give). -/
def stableSort {α : Type} (le : α → α → Bool) : List α → List α
  | [] => []
  | x :: t => insSorted le x (stableSort le t)

/-! ## Numpy helpers over exact rationals -/

/-- Default absolute tolerance of `np.isclose` (1e-8), also the `tol`
argument of `is_equidistant`. -/
def atol : ℚ := 1 / 100000000

/-- Default relative tolerance of `np.isclose` (1e-5). -/
def rtol : ℚ := 1 / 100000

/-- `np.isclose(a, b)` with default tolerances. -/
def qclose (a b : ℚ) : Bool := decide (|a - b| ≤ atol + rtol * |b|)

/-- `np.diff`: successive differences. -/
def npDiff (l : List ℚ) : List ℚ := l.zipWith (fun a b => b - a) l.tail

/-- Insert a value into a sorted duplicate-free list, keeping it sorted
and duplicate-free. -/
def insUniq (x : ℚ) : List ℚ → List ℚ
  | [] => [x]
  | a :: t => if x < a then x :: a :: t else if x = a then a :: t else a :: insUniq x t

/-- `np.unique`: the sorted list of distinct values. -/
def npUnique (l : List ℚ) : List ℚ := l.foldr insUniq []

/-- `ndarray.min()` for the nonempty arrays it is applied to. -/
def npMinQ (l : List ℚ) : ℚ := l.foldl min (l.headD 0)

/-- `ndarray.max()` for the nonempty arrays it is applied to. -/
def npMaxQ (l : List ℚ) : ℚ := l.foldl max (l.headD 0)

/-- `np.cumsum`: inclusive running sums. -/
def cumsumQ (l : List ℚ) : List ℚ := (l.scanl (· + ·) 0).tail

/-- `np.linspace(a, b, n)` (endpoint included). -/
def linspaceQ (a b : ℚ) (n : ℕ) : List ℚ :=
  (List.range n).map (fun k : ℕ => a + (b - a) * (k : ℚ) / ((n : ℚ) - 1))

/-- `np.searchsorted(l, v)` (side "left") on a sorted array: the
leftmost insertion index. -/
def searchsorted (l : List ℚ) (v : ℚ) : ℕ := (l.takeWhile (fun x => decide (x < v))).length

/-- Python `int()` of a rational: truncation toward zero. -/
def pyInt (x : ℚ) : ℤ := if 0 ≤ x then ⌊x⌋ else -⌊-x⌋

/-- Numpy slice assignment `l[i:j] = r` (with `r` of length `j - i`). -/
def setSliceQ (l : List ℚ) (i j : ℕ) (r : List ℚ) : List ℚ :=
  l.take i ++ r ++ l.drop j

/-- Numpy slice read `l[i:j]`. -/
def sliceQ (l : List ℚ) (i j : ℕ) : List ℚ := (l.take j).drop i

/-- One `np.interp` sample: clamped piecewise-linear interpolation on a
strictly increasing grid. -/
def interpOne : List ℚ → List ℚ → ℚ → ℚ
  | x1 :: x2 :: xt, y1 :: y2 :: yt, x =>
    if x ≤ x1 then y1
    else if x ≤ x2 then y1 + (y2 - y1) * (x - x1) / (x2 - x1)
    else interpOne (x2 :: xt) (y2 :: yt) x
  | [_], y1 :: _, _ => y1
  | _, _, _ => 0

/-! ## Numpy arrays

`shape` is the numpy shape, `data` the row-major flattened payload.
Python's `len` is the leading dimension and raises TypeError on 0-d
arrays. -/

structure NPArray where
  shape : List ℕ
  data : List ℚ
deriving DecidableEq, Repr

def NPArray.ndim (a : NPArray) : ℕ := a.shape.length

def NPArray.pyLen (a : NPArray) : Except PyErr ℕ :=
  match a.shape with
  | [] => .error .typeError
  | n :: _ => .ok n

/-- Number of scalars in one axis-0 row. -/
def NPArray.rowSize (a : NPArray) : ℕ := (a.shape.drop 1).foldl (· * ·) 1

def chunkRowsF : ℕ → ℕ → List ℚ → List (List ℚ)
  | 0, _, _ => []
  | f + 1, k, l =>
    if k = 0 ∨ l = [] then [] else l.take k :: chunkRowsF f k (l.drop k)

/-- Split flattened data into axis-0 rows. -/
def NPArray.rows (a : NPArray) : List (List ℚ) := chunkRowsF (a.data.length + 1) a.rowSize a.data

/-- Fancy indexing along axis 0 (used with a full permutation, so the
shape is unchanged). -/
def NPArray.index0 (a : NPArray) (idx : List ℕ) : NPArray :=
  ⟨a.shape, (idx.map (fun k => a.rows.getD k [])).flatten⟩

def NPArray.of1D (l : List ℚ) : NPArray := ⟨[l.length], l⟩

/-- `np.interp(xs, xp, fp)`: rejects a multi-dimensional `fp` with a
ValueError, as numpy does. -/
def npInterp (xs xp : List ℚ) (fp : NPArray) : Except PyErr NPArray :=
  if fp.ndim ≠ 1 then .error .valueError
  else .ok ⟨[xs.length], xs.map (interpOne xp fp.data)⟩

/-! ## gxps.processing -/

/-- `np.argsort` of the energy array.  Numpy's default quicksort is not
stable for ties; this deterministic refinement uses a stable sort. -/
def argsortQ (e : List ℚ) : List ℕ :=
  stableSort (fun a b => decide (e.getD a 0 ≤ e.getD b 0)) (List.range e.length)

/-- `processing.make_increasing`: sort energy ascending and reorder
intensity (axis 0) by the same permutation. -/
def make_increasing (e : List ℚ) (i : NPArray) : List ℚ × NPArray :=
  let idxes := argsortQ e
  (idxes.map (fun k => e.getD k 0), i.index0 idxes)

/-- `processing.is_equidistant` with its default tolerance (identical
to the `np.isclose` default used elsewhere). -/
def is_equidistant (l : List ℚ) : Bool :=
  match npUnique (npDiff l) with
  | [] => true
  | s0 :: rest => rest.all (fun s => qclose s s0)

/-- `processing.make_equidistant`.  `spacings.min()` on a zero-size
array raises ValueError; the dead `spacings.remove` branch taken when
the smallest spacing is close to zero raises AttributeError (ndarray
has no `remove`). -/
def make_equidistant (e : List ℚ) (i : NPArray) : Except PyErr (List ℚ × NPArray) :=
  match npUnique (npDiff e) with
  | [] => .error .valueError
  | s0 :: rest =>
    if qclose 0 s0 then .error .attributeError
    else if (s0 :: rest).all (fun s => qclose s s0) then .ok (e, i)
    else
      let lo := npMinQ e
      let hi := npMaxQ e
      let samples := (pyInt ((hi - lo) / s0)).toNat
      let se := linspaceQ lo hi samples
      match npInterp se e i with
      | .error er => .error er
      | .ok si => .ok (se, si)

/-- `processing.linear_bg`. -/
def linear_bg (energy intensity : List ℚ) : List ℚ :=
  linspaceQ (intensity.headD 0) (intensity.getLastD 0) energy.length

/-- Convergence test of one Shirley iteration:
`np.linalg.norm((bnew - background) / intensity[0]) < tol`, written
squared to stay inside ℚ (equivalent since both sides are
nonnegative). -/
def shirleyConverged (bnew background : List ℚ) (i0 : ℚ) : Bool :=
  decide (((bnew.zipWith (fun a b => a - b) background).map (fun d => d * d)).sum
    < (1 / 100000 : ℚ) ^ 2 * i0 ^ 2)

/-- The Shirley iteration.  `np.seterr(all="raise")` is active, so a
zero denominator (`integral[0]` or `intensity[0]`) raises
FloatingPointError.  Exhausting the iteration budget only logs a
warning and returns the last estimate. -/
def shirleyLoop (intensity : List ℚ) (spacing : ℚ) : List ℚ → ℕ → Except PyErr (List ℚ)
  | background, 0 => .ok background
  | background, n + 1 =>
    let rest := intensity.zipWith (fun a b => a - b) background
    let integral := (cumsumQ rest).map (fun c => spacing * (rest.sum - c))
    if integral.headD 0 = 0 then .error .floatingPointError
    else
      let bnew := integral.map (fun v =>
        (intensity.headD 0 - intensity.getLastD 0) * v / integral.headD 0
          + intensity.getLastD 0)
      if intensity.headD 0 = 0 then .error .floatingPointError
      else if shirleyConverged bnew background (intensity.headD 0) then .ok bnew
      else shirleyLoop intensity spacing bnew n

/-- `processing.shirley` (tol 1e-5, maxit 20).  The region is reversed
to descending energy, iterated, and un-reversed on return.  A
single-sample region makes the spacing computation divide zero by zero,
a FloatingPointError under `np.seterr(all="raise")`. -/
def shirley (energy intensity : List ℚ) : Except PyErr (List ℚ) :=
  if energy.getLastD 0 < energy.headD 0 then .error .valueError
  else if ¬ is_equidistant energy then .error .valueError
  else
    let e := energy.reverse
    let i := intensity.reverse
    if e.length ≤ 1 then .error .floatingPointError
    else
      let spacing := (e.getLastD 0 - e.headD 0) / ((e.length : ℚ) - 1)
      let bg0 := List.replicate e.length (i.getLastD 0)
      match shirleyLoop i spacing bg0 20 with
      | .error er => .error er
      | .ok bg => .ok bg.reverse

/-- The fixed background type vocabulary (`Spectrum.bg_types`). -/
def bg_types : List String := ["none", "linear", "shirley", "tougaard"]

/-- Region loop of `calculate_background`: a FloatingPointError from
`shirley` is caught (the slice keeps the copied intensity values),
its ValueErrors propagate. -/
def backgroundRegions (bgType : String) (energy intensity : List ℚ) :
    List (ℚ × ℚ) → List ℚ → Except PyErr (List ℚ)
  | [], bg => .ok bg
  | (lo, hi) :: rest, bg =>
    let a := searchsorted energy lo
    let b := searchsorted energy hi
    let idx1 := min a b
    let idx2 := max a b
    if idx1 = idx2 then backgroundRegions bgType energy intensity rest bg
    else if bgType = "shirley" then
      match shirley (sliceQ energy idx1 idx2) (sliceQ intensity idx1 idx2) with
      | .ok s => backgroundRegions bgType energy intensity rest (setSliceQ bg idx1 idx2 s)
      | .error .floatingPointError => backgroundRegions bgType energy intensity rest bg
      | .error er => .error er
    else if bgType = "linear" then
      backgroundRegions bgType energy intensity rest
        (setSliceQ bg idx1 idx2
          (linear_bg (sliceQ energy idx1 idx2) (sliceQ intensity idx1 idx2)))
    else if bgType = "tougaard" then .error .notImplementedError
    else .error .valueError

/-- Elements at even positions (`l[0::2]`). -/
def evensQ : List ℚ → List ℚ
  | [] => []
  | [a] => [a]
  | a :: _ :: t => a :: evensQ t

/-- Elements at odd positions (`l[1::2]`). -/
def oddsQ (l : List ℚ) : List ℚ := evensQ (l.drop 1)

/-- `processing.calculate_background`. -/
def calculate_background (bgType : String) (bgBounds energy intensity : List ℚ) :
    Except PyErr (List ℚ) :=
  if bgType = "none" then .ok (List.replicate energy.length 0)
  else
    let bounds := if bgBounds = [] then [npMinQ energy, npMaxQ energy] else bgBounds
    backgroundRegions bgType energy intensity ((evensQ bounds).zip (oddsQ bounds)) intensity

/-! ## gxps.spectrum: Spectrum state and setters

Events emitted by a spectrum are pairs (signal, attr property). -/

structure SpectrumState where
  energy : List ℚ
  intensity : List ℚ
  background : List ℚ
  background_type : String
  background_bounds : List ℚ
  energy_calibration : ℚ
  normalization_type : String
  normalization_divisor : ℚ
deriving DecidableEq, Repr

abbrev SpecEv := String × Option String

abbrev SpecResult := Except PyErr Unit × SpectrumState × List SpecEv

/-- `Spectrum.__init__` from the energy/intensity validation onwards:
checks equal `len` and one-dimensional energy, sorts ascending, and
resamples onto an equidistant grid.  Multi-dimensional intensity is
stored flattened (its dimensionality is never validated). -/
def Spectrum.init (energy intensity : NPArray) : Except PyErr SpectrumState :=
  match energy.pyLen, intensity.pyLen with
  | .error e, _ => .error e
  | _, .error e => .error e
  | .ok lenE, .ok lenI =>
    if lenE ≠ lenI ∨ energy.ndim ≠ 1 then .error .valueError
    else
      let ei := make_increasing energy.data intensity
      match make_equidistant ei.1 ei.2 with
      | .error er => .error er
      | .ok (e2, i2) =>
        .ok { energy := e2
            , intensity := i2.data
            , background := List.replicate e2.length 0
            , background_type := "none"
            , background_bounds := []
            , energy_calibration := 0
            , normalization_type := "none"
            , normalization_divisor := 1 }

/-- The `energy` property: raw energy plus calibration. -/
def energyDisplayed (s : SpectrumState) : List ℚ :=
  s.energy.map (fun x => x + s.energy_calibration)

/-- The `background_bounds` property: stored bounds plus calibration. -/
def boundsDisplayed (s : SpectrumState) : List ℚ :=
  s.background_bounds.map (fun x => x + s.energy_calibration)

/-- The `energy_calibration` setter.  The guard rejecting `±np.inf`
cannot fire on ℚ, which models exactly the finite floats. -/
def set_energy_calibration (s : SpectrumState) (v : ℚ) : SpecResult :=
  (.ok (), { s with energy_calibration := v }, [("changed-spectrum", some "energy_calibration")])

/-- The `normalization_divisor` setter: rejects values without
`abs(value) > 0` and otherwise switches the type to manual. -/
def set_normalization_divisor (s : SpectrumState) (v : ℚ) : SpecResult :=
  if |v| > 0 then
    (.ok (), { s with normalization_type := "manual", normalization_divisor := v },
      [("changed-spectrum", some "normalization_divisor")])
  else (.error .valueError, s, [])

/-- The `background_type` setter: validates against `bg_types`, assigns
the new type, then recomputes the background (which raises
NotImplementedError for tougaard, leaving the assigned type behind). -/
def set_background_type (s : SpectrumState) (v : String) : SpecResult :=
  if ¬ bg_types.contains v then (.error .valueError, s, [])
  else if s.background_type = v then (.ok (), s, [])
  else
    let s1 := { s with background_type := v }
    match calculate_background v (boundsDisplayed s1) (energyDisplayed s1) s1.intensity with
    | .error er => (.error er, s1, [])
    | .ok bg => (.ok (), { s1 with background := bg }, [("changed-spectrum", some "background_type")])

/-! ## gxps.utility: Event, EventList, EventBus

Callbacks are opaque identifiers; a dispatch is reported as the list of
(callback, merged EventList) invocations in call order.  Property
values are atoms or Python lists (the two cases `EventList` merging
distinguishes). -/

inductive PVal where
  | atom (s : String)
  | vlist (l : List String)
deriving DecidableEq, Repr

structure BEvent where
  signal : String
  source : List ℕ
  properties : List (String × PVal)
deriving DecidableEq, Repr

/-- The merged view an `EventList` presents: every property value is a
list; `source` is the concatenation of the members' sources. -/
structure EventListE where
  signal : String
  source : List ℕ
  properties : List (String × List PVal)
deriving DecidableEq, Repr

/-- Ordered-dictionary lookup (Python dicts never hold duplicate
keys). -/
def lookupA {α : Type} : List (String × α) → String → Option α
  | [], _ => none
  | p :: t, k => if p.1 = k then some p.2 else lookupA t k

/-- Ordered-dictionary write: update in place or append. -/
def setA {α : Type} : List (String × α) → String → α → List (String × α)
  | [], k, v => [(k, v)]
  | p :: t, k, v => if p.1 = k then (k, v) :: t else p :: setA t k v

/-- Merge one event into the accumulating `EventList` view: a list
value extends the merged list, anything else is appended. -/
def mergeEv (acc : EventListE) (e : BEvent) : EventListE :=
  let props := e.properties.foldl (fun ps kv =>
    let cur := (lookupA ps kv.1).getD []
    match kv.2 with
    | .vlist l => setA ps kv.1 (cur ++ l.map PVal.atom)
    | v => setA ps kv.1 (cur ++ [v])) acc.properties
  ⟨acc.signal, acc.source ++ e.source, props⟩

/-- `EventList.__init__`: IndexError on an empty list, AttributeError
when the members do not share one signal. -/
def mkEventList (evs : List BEvent) : Except PyErr EventListE :=
  match evs with
  | [] => .error .indexError
  | e0 :: _ =>
    if evs.all (fun e => e.signal = e0.signal) then
      .ok (evs.foldl mergeEv ⟨e0.signal, [], []⟩)
    else .error .attributeError

/-- EventBus state: `policies` is the `_policy` dict (which holds the
"default" and "all" entries alongside per-signal ones, "all" starting
as None), `subscribers` maps signals to (callback, priority) lists,
`queue` maps signals to pending event lists. -/
structure BusState where
  policies : List (String × Option String)
  subscribers : List (String × List (ℕ × ℤ))
  queue : List (String × List BEvent)
deriving DecidableEq, Repr

def busPolicies : List String := ["ignore", "accumulate", "fire"]

/-- `EventBus.__init__`. -/
def mkBus (default_policy : String) : Except PyErr BusState :=
  if ¬ busPolicies.contains default_policy then .error .valueError
  else .ok ⟨[("default", some default_policy), ("all", none)], [], []⟩

/-- `EventBus.subscribe`. -/
def subscribe (bus : BusState) (cb : ℕ) (signal : String) (priority : ℤ) :
    Except PyErr BusState :=
  if signal = "all" then .error .valueError
  else .ok { bus with
    subscribers := setA bus.subscribers signal
      (((lookupA bus.subscribers signal).getD []) ++ [(cb, priority)]) }

/-- Python `dict(pairs)`: first-occurrence key order, last value wins. -/
def pyDictOfPairs (l : List (ℕ × ℤ)) : List (ℕ × ℤ) :=
  l.foldl (fun acc kv =>
    if acc.any (fun p => p.1 = kv.1) then acc.map (fun p => if p.1 = kv.1 then kv else p)
    else acc ++ [kv]) []

/-- Python `dict.pop(k, None)`. -/
def pyDictPop (l : List (ℕ × ℤ)) (k : ℕ) : List (ℕ × ℤ) :=
  l.filter (fun p => p.1 ≠ k)

/-- `EventBus.unsubscribe`.  Both branches only mutate throwaway
dictionaries built by `dict(...)`: the "all" branch calls `dict` on
each *key string* of `_subscribers` (a ValueError on any nonempty
signal name), the per-signal branch pops from a temporary dict built
from the subscriber list (KeyError when the signal was never
subscribed).  The bus's own subscriber lists are never touched. -/
def unsubscribe (bus : BusState) (cb : ℕ) (signal : String) :
    Except PyErr Unit × BusState :=
  if signal = "all" then
    if bus.subscribers.all (fun p => p.1 = "") then (.ok (), bus)
    else (.error .valueError, bus)
  else
    match lookupA bus.subscribers signal with
    | none => (.error .keyError, bus)
    | some subs =>
      let _tmp := pyDictPop (pyDictOfPairs subs) cb
      (.ok (), bus)

/-- `EventBus.fire` for one specific signal: nothing queued or no
subscriber key means an early return; otherwise the queue is cleared
and every subscriber is called once, in ascending priority (Python's
`sorted` is stable, as is `mergeSort`). -/
def fireOne (bus : BusState) (signal : String) :
    Except PyErr (BusState × List (ℕ × EventListE)) :=
  match lookupA bus.queue signal with
  | none => .ok (bus, [])
  | some evs =>
    if evs = [] then .ok (bus, [])
    else
      match lookupA bus.subscribers signal with
      | none => .ok (bus, [])
      | some subs =>
        match mkEventList evs with
        | .error e => .error e
        | .ok el =>
          .ok ({ bus with queue := setA bus.queue signal [] },
            (stableSort (fun x y => decide (x.2 ≤ y.2)) subs).map (fun cp => (cp.1, el)))

/-- `EventBus.fire`: "all" loops over the queue keys (skipping a
literal "all" key), a specific signal dispatches directly. -/
def fire (bus : BusState) (signal : String) :
    Except PyErr (BusState × List (ℕ × EventListE)) :=
  if signal = "all" then
    (bus.queue.map (fun p => p.1)).foldlM (fun acc s =>
      if s = "all" then .ok acc
      else do
        let r ← fireOne acc.1 s
        .ok (r.1, acc.2 ++ r.2)) (bus, [])
  else fireOne bus signal

/-- The policy `_policy.get(signal, _policy["default"])` resolves to
for a signal. -/
def policyLookup (bus : BusState) (signal : String) : Option String :=
  match lookupA bus.policies signal with
  | some v => v
  | none => (lookupA bus.policies "default").getD none

/-- The "all" policy override (`_policy["all"]`). -/
def policyAll (bus : BusState) : Option String :=
  (lookupA bus.policies "all").getD none

/-- Python truthiness of the optional policy string. -/
def truthyS (o : Option String) : Bool :=
  match o with
  | some s => s ≠ ""
  | none => false

def hasNoqueue (ev : BEvent) : Bool := ev.properties.any (fun p => p.1 = "noqueue")

/-- Append an event to its signal's pending queue. -/
def pushQueue (bus : BusState) (ev : BEvent) : BusState :=
  { bus with queue := setA bus.queue ev.signal (((lookupA bus.queue ev.signal).getD []) ++ [ev]) }

/-- `EventBus.enqueue`: a truthy "all" policy overrides the per-signal
policy *and* skips the ignore early-return; otherwise an effective
"ignore" policy drops the event before the noqueue test; an enqueued
event fires at once if it carries "noqueue" or the policy is "fire". -/
def enqueue (bus : BusState) (ev : BEvent) :
    Except PyErr (BusState × List (ℕ × EventListE)) :=
  let p0 := policyLookup bus ev.signal
  if truthyS (policyAll bus) then
    let bus1 := pushQueue bus ev
    if hasNoqueue ev ∨ policyAll bus = some "fire" then fire bus1 ev.signal
    else .ok (bus1, [])
  else if p0 = some "ignore" then .ok (bus, [])
  else
    let bus1 := pushQueue bus ev
    if hasNoqueue ev ∨ p0 = some "fire" then fire bus1 ev.signal
    else .ok (bus1, [])

/-- `EventBus.set_policy`. -/
def set_policy (bus : BusState) (policy : String) (signal : String) :
    Except PyErr BusState :=
  if ¬ busPolicies.contains policy then .error .valueError
  else .ok { bus with policies := setA bus.policies signal (some policy) }

/-- Queue well-formedness: every pending event sits under its own
signal's key (established by `enqueue`, which appends each event to
`queue[event.signal]`). -/
def wfBus (bus : BusState) : Bool :=
  bus.queue.all (fun p => p.2.all (fun ev => ev.signal = p.1))

/-! ## gxps.spectrum: ModeledSpectrum / Peak constraint engine

The shared lmfit parameter pool (an external collaborator of the core,
spec section 6) is modelled as an ordered map from parameter names to
(value, vary, min, max, optional expression); `valuesdict()`
re-evaluates each constrained parameter with asteval, which raises
NameError for an undefined name and SyntaxError for a malformed
expression.  Expressions reference other parameters' current values
(the claims only exercise one-level references). -/

/-- Rationals extended with the infinities used for default bounds
(`min=0, max=np.inf`). -/
inductive QInf where
  | q (x : ℚ)
  | inf
  | ninf
deriving DecidableEq, Repr

inductive Shape where
  | pseudoVoigt
  | doniachSunjic
  | voigt
deriving DecidableEq, Repr

structure Param where
  value : ℚ
  vary : Bool
  minB : QInf
  maxB : QInf
  expr : Option String
deriving DecidableEq, Repr

/-- The constraint tuple exchanged by `get_constraints` and
`set_constraints` (`value=None` unsets). -/
structure Constraints where
  value : Option ℚ
  vary : Bool
  minB : QInf
  maxB : QInf
  expr : String
deriving DecidableEq, Repr

structure PeakR where
  name : String
  shape : Shape
deriving DecidableEq, Repr

/-- A modeled spectrum's fit state: its peaks and the shared pool. -/
structure MState where
  peaks : List PeakR
  pool : List (String × Param)
deriving DecidableEq, Repr

/-- `Peak._default_constraints`. -/
def default_constraints : Constraints := ⟨none, true, .q 0, .inf, ""⟩

/-- The peak's own `param_aliases` dict (bare `[...]` access, so an
absent alias is a KeyError): the three base aliases plus the
shape-specific alpha mapping from `initialize_model`. -/
def aliasDict (sh : Shape) (als : String) : Option String :=
  if als = "area" then some "amplitude"
  else if als = "fwhm" then some "fwhm"
  else if als = "position" then some "center"
  else if als = "alpha" then
    some (match sh with
      | .pseudoVoigt => "fraction"
      | .doniachSunjic => "asym"
      | .voigt => "fwhm_l")
  else none

/-- `{**_default_aliases, **param_aliases}.get(alias, alias)` as used
by `get_param`: `none` encodes the None entries (beta, gamma) that make
`get_param` raise ValueError; unknown aliases fall through to
themselves. -/
def mergedAlias (sh : Shape) (als : String) : Option String :=
  if als = "beta" ∨ als = "gamma" then none
  else some ((aliasDict sh als).getD als)

/-- `Peak.get_param`, returning the pool key together with the
parameter: ValueError for an unsupported alias, KeyError when the key
is missing from the pool. -/
def getParamKey (st : MState) (p : PeakR) (als : String) :
    Except PyErr (String × Param) :=
  match mergedAlias p.shape als with
  | none => .error .valueError
  | some pn =>
    let key := p.name ++ "_" ++ pn
    match lookupA st.pool key with
    | none => .error .keyError
    | some par => .ok (key, par)

/-! ### ASCII character classes and the two `re.sub` patterns -/

def isLetterA (c : Char) : Bool :=
  decide (('A' ≤ c ∧ c ≤ 'Z') ∨ ('a' ≤ c ∧ c ≤ 'z'))

def isDigitA (c : Char) : Bool := decide ('0' ≤ c ∧ c ≤ '9')

def isLowerA (c : Char) : Bool := decide ('a' ≤ c ∧ c ≤ 'z')

def isAlnumA (c : Char) : Bool := isLetterA c || isDigitA c

/-- Regex word characters (`\w`), which decide `\b` boundaries. -/
def isWordA (c : Char) : Bool := isAlnumA c || c = '_'

/-- ASCII upper-casing of one character (Python `str.upper` on the
identifiers involved). -/
def upChar (c : Char) : Char :=
  if 'a' ≤ c ∧ c ≤ 'z' then Char.ofNat (c.toNat - 32) else c

def upStr (s : String) : String := ⟨s.data.map upChar⟩

/-- Split a string into maximal word-character runs and single
non-word characters; `\b`-anchored matches can only start at the head
of a word run. -/
def splitRunsF : ℕ → List Char → List (List Char)
  | 0, _ => []
  | _ + 1, [] => []
  | f + 1, c :: t =>
    if isWordA c then (c :: t.takeWhile isWordA) :: splitRunsF f (t.dropWhile isWordA)
    else [c] :: splitRunsF f t

def splitRuns (s : List Char) : List (List Char) := splitRunsF (s.length + 1) s

/-- `re.sub(r"\b[A-Za-z][A-Za-z0-9]*", repl, s)` for a replacement
callback that may raise: within each word run, the only `\b` position
is its start, and the match is the maximal alphanumeric run there if it
starts with a letter. -/
def pySub1 (repl : List Char → Except PyErr (List Char)) (s : List Char) :
    Except PyErr (List Char) := do
  let parts ← (splitRuns s).mapM (fun r =>
    match r with
    | c :: _ =>
      if isLetterA c then do
        let m := r.takeWhile isAlnumA
        let rep ← repl m
        pure (rep ++ r.drop m.length)
      else pure r
    | [] => pure r)
  pure parts.flatten

/-- `re.sub(r"\b[A-Za-z][A-Za-z0-9]*_[a-z_]+", repl, s)` for a total
replacement: an alphanumeric run starting with a letter, an
underscore, then at least one character of `[a-z_]`, all anchored at
the start of a word run. -/
def pySub2 (repl : List Char → List Char) (s : List Char) : List Char :=
  ((splitRuns s).map (fun r =>
    match r with
    | c :: _ =>
      if isLetterA c then
        let a := r.takeWhile isAlnumA
        match r.drop a.length with
        | '_' :: t =>
          let b := t.takeWhile (fun c => isLowerA c || c = '_')
          if b = [] then r
          else repl (a ++ '_' :: b) ++ t.drop b.length
        | _ => r
      else r
    | [] => r)).flatten

/-- The `name_repl` callback of `Peak.relation2expr`: upper-case the
matched identifier, raise ValueError on a self-reference, and for a
case-insensitive sibling match emit the *upper-cased* name joined to
the sibling's real parameter name (KeyError if the sibling's alias
dict lacks the alias); unmatched identifiers come back upper-cased. -/
def nameRepl (st : MState) (p : PeakR) (als : String) (m : List Char) :
    Except PyErr (List Char) :=
  let name := m.map upChar
  if name = p.name.data.map upChar then .error .valueError
  else
    match st.peaks.find? (fun pk => pk.name.data.map upChar = name) with
    | some other =>
      match aliasDict other.shape als with
      | some pn => .ok (name ++ '_' :: pn.data)
      | none => .error .keyError
    | none => .ok name

/-- `Peak.relation2expr`. -/
def relation2expr (st : MState) (p : PeakR) (relation : String) (als : String) :
    Except PyErr String :=
  match pySub1 (nameRepl st p als) relation.data with
  | .error e => .error e
  | .ok cs => .ok ⟨cs⟩

/-- The `param_repl` callback of `Peak.expr2relation`: keep the part of
the parameter key before the first underscore, provided the peak still
belongs to its spectrum. -/
def paramRepl (st : MState) (p : PeakR) (m : List Char) : List Char :=
  if st.peaks.any (fun pk => pk.name = p.name) then m.takeWhile (fun c => c ≠ '_')
  else m

/-- `Peak.expr2relation`. -/
def expr2relation (st : MState) (p : PeakR) (expr : String) : String :=
  ⟨pySub2 (paramRepl st p) expr.data⟩

/-! ### asteval on the arithmetic fragment the constraints use -/

inductive ETok where
  | ident (s : String)
  | num (v : ℚ)
  | plus
  | minus
  | star
  | slash
  | lpar
  | rpar
deriving DecidableEq, Repr

def digitsToNat (ds : List Char) : ℕ :=
  ds.foldl (fun acc c => acc * 10 + (c.toNat - '0'.toNat)) 0

/-- Tokenize an expression; an unexpected character is a SyntaxError. -/
def lexE : ℕ → List Char → Except PyErr (List ETok)
  | 0, _ => .error .parseError
  | _ + 1, [] => .ok []
  | f + 1, c :: t =>
    if c = ' ' then lexE f t
    else if c = '+' then do pure (.plus :: (← lexE f t))
    else if c = '-' then do pure (.minus :: (← lexE f t))
    else if c = '*' then do pure (.star :: (← lexE f t))
    else if c = '/' then do pure (.slash :: (← lexE f t))
    else if c = '(' then do pure (.lpar :: (← lexE f t))
    else if c = ')' then do pure (.rpar :: (← lexE f t))
    else if isLetterA c || c = '_' then
      let run := t.takeWhile isWordA
      do pure (.ident ⟨c :: run⟩ :: (← lexE f (t.drop run.length)))
    else if isDigitA c then
      let run := t.takeWhile isDigitA
      let ip := digitsToNat (c :: run)
      let t1 := t.drop run.length
      match t1 with
      | '.' :: t2 =>
        let fr := t2.takeWhile isDigitA
        do pure (.num ((ip : ℚ) + (digitsToNat fr : ℚ) / (10 : ℚ) ^ fr.length)
            :: (← lexE f (t2.drop fr.length)))
      | _ => do pure (.num (ip : ℚ) :: (← lexE f t1))
    else .error .parseError

mutual

/-- Recursive-descent evaluation: `level` 0 parses sums, 1 products,
2 atoms.  Division by zero raises ZeroDivisionError, an undefined
identifier NameError. -/
def evalToks (env : String → Option ℚ) : ℕ → ℕ → List ETok → Except PyErr (ℚ × List ETok)
  | 0, _, _ => .error .parseError
  | f + 1, 0, ts => do
    let (v, r) ← evalToks env f 1 ts
    evalSumRest env f v r
  | f + 1, 1, ts => do
    let (v, r) ← evalToks env f 2 ts
    evalProdRest env f v r
  | f + 1, _, ts =>
    match ts with
    | .num v :: r => .ok (v, r)
    | .ident s :: r =>
      match env s with
      | some v => .ok (v, r)
      | none => .error .nameError
    | .minus :: r => do
      let (v, r') ← evalToks env f 2 r
      .ok (-v, r')
    | .lpar :: r => do
      let (v, r') ← evalToks env f 0 r
      match r' with
      | .rpar :: r'' => .ok (v, r'')
      | _ => .error .parseError
    | _ => .error .parseError

/-- Fold trailing `+`/`-` terms onto a parsed value. -/
def evalSumRest (env : String → Option ℚ) : ℕ → ℚ → List ETok → Except PyErr (ℚ × List ETok)
  | 0, _, _ => .error .parseError
  | f + 1, v, ts =>
    match ts with
    | .plus :: r => do
      let (w, r') ← evalToks env f 1 r
      evalSumRest env f (v + w) r'
    | .minus :: r => do
      let (w, r') ← evalToks env f 1 r
      evalSumRest env f (v - w) r'
    | _ => .ok (v, ts)

/-- Fold trailing `*`/`/` factors onto a parsed value. -/
def evalProdRest (env : String → Option ℚ) : ℕ → ℚ → List ETok → Except PyErr (ℚ × List ETok)
  | 0, _, _ => .error .parseError
  | f + 1, v, ts =>
    match ts with
    | .star :: r => do
      let (w, r') ← evalToks env f 2 r
      evalProdRest env f (v * w) r'
    | .slash :: r => do
      let (w, r') ← evalToks env f 2 r
      if w = 0 then .error .zeroDivisionError
      else evalProdRest env f (v / w) r'
    | _ => .ok (v, ts)

end

/-- Evaluate one expression string in an environment. -/
def pyEval (env : String → Option ℚ) (s : String) : Except PyErr ℚ := do
  let toks ← lexE (s.data.length + 1) s.data
  let (v, rest) ← evalToks env (4 * (toks.length + 2)) 0 toks
  if rest = [] then .ok v else .error .parseError

/-- `Parameters.valuesdict()`: re-evaluate every constrained parameter
from its expression over the pool's current values. -/
def evalPool (pool : List (String × Param)) : Except PyErr (List (String × Param)) :=
  let env := fun n => (lookupA pool n).map (fun par => par.value)
  pool.mapM (fun kv =>
    match kv.2.expr with
    | none => pure kv
    | some e => do
      let v ← pyEval env e
      pure (kv.1, { kv.2 with value := v }))

/-! ### set_constraints / get_constraints / remove_peak -/

/-- `lmfit.Parameter.set(**c)` with every field supplied: a None value
keeps the current one, an empty expression clears the constraint, a
nonempty one stores it and forces `vary=False`. -/
def Param.setAll (par : Param) (c : Constraints) : Param :=
  { value := c.value.getD par.value
  , vary := if c.expr = "" then c.vary else false
  , minB := c.minB
  , maxB := c.maxB
  , expr := if c.expr = "" then none else some c.expr }

/-- `param.set(expr=expr, min=0, max=np.inf)`: storing an expression
constraint also stops the parameter from varying. -/
def paramSetExpr (par : Param) (e : String) : Param :=
  { par with expr := some e, vary := false, minB := .q 0, maxB := .inf }

/-- The constraint tuple `get_constraints` reads off an existing
parameter: the expression is translated back into a relation. -/
def oldConstraints (st : MState) (p : PeakR) (par : Param) : Constraints :=
  ⟨some par.value, par.vary, par.minB, par.maxB,
    match par.expr with
    | none => ""
    | some e => expr2relation st p e⟩

/-- `Peak.get_constraints`: defaults for an unsupported alias, KeyError
propagates. -/
def get_constraints (st : MState) (p : PeakR) (als : String) :
    Except PyErr Constraints :=
  match getParamKey st p als with
  | .error .valueError => .ok default_constraints
  | .error e => .error e
  | .ok (_, par) => .ok (oldConstraints st p par)

/-- The early-return test of `set_constraints`: proceed only when some
non-None argument differs from the current constraint. -/
def constraintsChanged (new old : Constraints) : Bool :=
  (match new.value with
    | some v => old.value ≠ some v
    | none => false)
  || new.vary ≠ old.vary || new.minB ≠ old.minB || new.maxB ≠ old.maxB
  || new.expr ≠ old.expr

abbrev PeakResult := Except PyErr Unit × MState × List String

/-- `Peak.set_constraints`.  A missing alias is skipped silently; a
self-referencing expression raises ValueError before any pool
mutation; a rewritten expression that fails to evaluate
(SyntaxError/NameError/TypeError) is rolled back by re-applying the
previous constraint tuple with its expression *replaced by the empty
string*, and the call still returns normally, emitting "changed-peak"
twice. -/
def set_constraints (st : MState) (p : PeakR) (als : String) (value : Option ℚ)
    (varyArg : Option Bool) (mn : QInf := .q 0) (mx : QInf := .inf) (expr : String := "") :
    PeakResult :=
  let vary := varyArg.getD (value.isNone && expr = "")
  match getParamKey st p als with
  | .error .valueError => (.ok (), st, [])
  | .error e => (.error e, st, [])
  | .ok (key, par) =>
    let old := oldConstraints st p par
    let new : Constraints := ⟨value, vary, mn, mx, expr⟩
    if constraintsChanged new old = false then (.ok (), st, [])
    else if expr = "" then
      (.ok (), { st with pool := setA st.pool key (Param.setAll par new) }, ["changed-peak"])
    else
      match relation2expr st p expr als with
      | .error e => (.error e, st, [])
      | .ok e' =>
        let pool1 := setA st.pool key (paramSetExpr par e')
        match evalPool pool1 with
        | .ok pool2 => (.ok (), { st with pool := pool2 }, ["changed-peak"])
        | .error er =>
          if er = .parseError ∨ er = .nameError ∨ er = .typeError then
            let rolled := Param.setAll (paramSetExpr par e') { old with expr := "" }
            (.ok (), { st with pool := setA st.pool key rolled },
              ["changed-peak", "changed-peak"])
          else (.error er, { st with pool := pool1 }, [])

/-- `re.match(name + "_[a-z]+", key)`.  The peak name is interpolated
into the regex as raw pattern text, so this literal-prefix reading is
the pattern's exact semantics only when `name` is free of regex
metacharacters (e.g. for names of letters, digits and underscores): the
key then starts with the name and an underscore, followed by at least
one lowercase letter.  A metacharacter in the name changes the
pattern's meaning instead (removing a peak named `p+` matches the keys
of a sibling named `pp`, since `p+_[a-z]+` matches `pp_fwhm`), which
this definition does not model; theorems about clearing therefore
restrict the names they quantify over to alphanumeric ones. -/
def clearMatch (name key : String) : Bool :=
  let pre := (name ++ "_").data
  decide (key.data.take pre.length = pre) &&
    (match key.data.drop pre.length with
      | c :: _ => isLowerA c
      | [] => false)

/-- `Peak.clear_params`: drop every pool entry matching the peak's
name pattern. -/
def clear_params (pool : List (String × Param)) (name : String) :
    List (String × Param) :=
  pool.filter (fun kv => ! clearMatch name kv.1)

def removeFirst : List PeakR → PeakR → List PeakR
  | [], _ => []
  | q :: t, p => if q = p then t else q :: removeFirst t p

/-- `ModeledSpectrum.remove_peak`: clear the peak's parameters, then
drop it from the peak list (`list.remove` raises ValueError when
absent, but only after the parameters were already cleared) and emit
"changed-fit" with attr "peaks". -/
def remove_peak (st : MState) (p : PeakR) :
    Except PyErr Unit × MState × List SpecEv :=
  let pool' := clear_params st.pool p.name
  if st.peaks.contains p then
    (.ok (), ⟨removeFirst st.peaks p, pool'⟩, [("changed-fit", some "peaks")])
  else (.error .valueError, ⟨st.peaks, pool'⟩, [])

/-- A peak name without underscores.  Necessary for parameter clearing
to spare siblings (the counterexample `a` / `a_x`), but not sufficient:
the name is interpolated into the clearing regex, so a regex
metacharacter in an underscore-free name can still reach a sibling
(`p+` matches `pp_fwhm` via `p+_[a-z]+`). -/
def noUnderscore (s : String) : Bool := s.data.all (fun c => c ≠ '_')

/-- A peak name consisting only of ASCII letters and digits.  These
are exactly regex-literal characters, so for such a name the
interpolated pattern `name + "_[a-z]+"` is a literal prefix test
(`clearMatch` is its exact semantics), and the name contains no
underscore, so the prefix test cannot reach a distinct sibling's keys. -/
def alnumName (s : String) : Bool := s.data.all isAlnumA

/-- A nonempty string starting with a lowercase letter (the form of
every real parameter name: amplitude, center, fwhm, fraction, asym,
fwhm_l). -/
def lowerLed (s : String) : Bool :=
  match s.data with
  | c :: _ => isLowerA c
  | [] => false

/-! ## Concrete fixtures used by witnesses and counterexamples -/

/-- A parameter as `initialize_model` leaves it: varying, min 0, max
infinity, no expression. -/
def pvP (v : ℚ) : Param := ⟨v, true, .q 0, .inf, none⟩

/-- The small spectrum of the repository's own fixture
(`energy=[1,2,3]`, `intensity=[4,5,6]`). -/
def spec0 : SpectrumState := ⟨[1, 2, 3], [4, 5, 6], [0, 0, 0], "none", [], 0, "none", 1⟩

/-- Two PseudoVoigt peaks named p1 and p2 as `add_peak` builds them,
with `p2_fwhm = 4.5` and `p1_fwhm = 2`. -/
def c2st : MState :=
  ⟨[⟨"p1", .pseudoVoigt⟩, ⟨"p2", .pseudoVoigt⟩],
   [("p1_amplitude", pvP 300), ("p1_center", pvP 340), ("p1_fwhm", pvP 2),
    ("p1_fraction", pvP (1/2)),
    ("p2_amplitude", pvP 200), ("p2_center", pvP 500), ("p2_fwhm", pvP (9/2)),
    ("p2_fraction", pvP (1/2))]⟩

def peakP1 : PeakR := ⟨"p1", .pseudoVoigt⟩

/-- The same two peaks with upper-case names (the only spelling for
which the expression rewriting produces an existing pool key). -/
def c3st : MState :=
  ⟨[⟨"P1", .pseudoVoigt⟩, ⟨"P2", .pseudoVoigt⟩],
   [("P1_amplitude", pvP 300), ("P1_center", pvP 340), ("P1_fwhm", pvP 2),
    ("P1_fraction", pvP (1/2)),
    ("P2_amplitude", pvP 200), ("P2_center", pvP 500), ("P2_fwhm", pvP (9/2)),
    ("P2_fraction", pvP (1/2))]⟩

def peakQ1 : PeakR := ⟨"P1", .pseudoVoigt⟩

/-- State of `c3st` after the successful constraint
`P1.fwhm = "P2*3"`. -/
def c3st1 : MState := (set_constraints c3st peakQ1 "fwhm" none none (.q 0) .inf "P2*3").2.1

/-- The constrained `P1_fwhm` parameter inside `c3st1`. -/
def parC3 : Param := ⟨27/2, false, .q 0, .inf, some "P2_fwhm*3"⟩

/-- Peaks named "a" and "a_x": distinct names on which the parameter
clearing pattern of the first collides with the second's keys. -/
def peakA : PeakR := ⟨"a", .pseudoVoigt⟩

def peakAX : PeakR := ⟨"a_x", .pseudoVoigt⟩

def c7st : MState :=
  ⟨[peakA, peakAX],
   [("a_amplitude", pvP 1), ("a_center", pvP 1), ("a_fwhm", pvP 1), ("a_fraction", pvP (1/2)),
    ("a_x_amplitude", pvP 1), ("a_x_center", pvP 1), ("a_x_fwhm", pvP 1),
    ("a_x_fraction", pvP (1/2))]⟩

/-- A bus whose default policy is "ignore", with one subscriber. -/
def busIgnore : BusState :=
  ⟨[("default", some "ignore"), ("all", none)], [("sig", [(0, 5)])], []⟩

/-- A bus whose default policy is "accumulate", with one subscriber. -/
def busAcc : BusState :=
  ⟨[("default", some "accumulate"), ("all", none)], [("sig", [(0, 5)])], []⟩

/-- An event carrying the `noqueue` property. -/
def evNoqueue : BEvent := ⟨"sig", [7], [("noqueue", .atom "x")]⟩

/-- A plain event. -/
def evPlain : BEvent := ⟨"sig", [7], [("attr", .atom "x")]⟩

/-- An accumulate bus with one pending event and three subscribers. -/
def busPend : BusState :=
  ⟨[("default", some "accumulate"), ("all", none)],
   [("sig", [(10, 10), (5, 5), (1, 1)])], [("sig", [evPlain])]⟩

/-- 1-D energy `[1, 2]` paired below with a 2-D intensity. -/
def c4energy : NPArray := ⟨[2], [1, 2]⟩

/-- A 2-by-2 intensity array: `ndim = 2`, `len = 2`. -/
def c4intensity : NPArray := ⟨[2, 2], [1, 2, 3, 4]⟩

/-! # Helper lemmas -/

theorem lookupA_setA_self {α : Type} (l : List (String × α)) (k : String) (v : α) :
    lookupA (setA l k v) k = some v := by
  induction l with
  | nil => simp [setA, lookupA]
  | cons p t ih =>
    by_cases h : p.1 = k
    · simp [setA, lookupA, h]
    · simp [setA, lookupA, h, ih]

theorem lookupA_mem {α : Type} (l : List (String × α)) (k : String) (v : α) :
    lookupA l k = some v → (k, v) ∈ l := by
  induction l with
  | nil => intro h; simp [lookupA] at h
  | cons p t ih =>
    obtain ⟨pk, pv⟩ := p
    intro h
    by_cases hp : pk = k
    · subst hp
      simp [lookupA] at h
      subst h
      exact List.mem_cons_self _ _
    · simp [lookupA, hp] at h
      exact List.mem_cons_of_mem _ (ih h)

theorem lookupA_filter_key {α : Type} (f : String → Bool) (l : List (String × α)) (k : String) :
    lookupA (l.filter (fun kv => ! f kv.1)) k =
      (if f k = true then none else lookupA l k) := by
  induction l with
  | nil => simp [lookupA]
  | cons p t ih =>
    by_cases hf : f p.1
    · rw [List.filter_cons_of_neg (by simp [hf])]
      by_cases hk : p.1 = k
      · subst hk
        simp [hf, ih]
      · simp [lookupA, ih, hk]
    · rw [List.filter_cons_of_pos (by simp [hf])]
      by_cases hk : p.1 = k
      · subst hk
        simp [lookupA, hf, ih]
      · simp [lookupA, hk, ih]

/-! # Claims -/

/-- C10: for every EventBus state, any unsubscribe call — previously
subscribed callback or not, specific signal or the default "all" —
leaves the subscriber lists unchanged (it only mutates throwaway
dictionaries, or raises first), so every subsequent dispatch invokes
exactly the callbacks it would have invoked before the call. -/
theorem C10_unsubscribe_is_noop (bus : BusState) (cb : ℕ) (signal : String) :
    (unsubscribe bus cb signal).2 = bus ∧
      ∀ s', fireOne (unsubscribe bus cb signal).2 s' = fireOne bus s' := by
  have h2 : (unsubscribe bus cb signal).2 = bus := by
    unfold unsubscribe
    by_cases h : signal = "all"
    · simp only [h, if_pos]
      split <;> rfl
    · simp only [if_neg h]
      cases lookupA bus.subscribers signal <;> rfl
  exact ⟨h2, fun s' => by rw [h2]⟩

/-- C5: changing the energy calibration from c to c + δ always
succeeds on finite values, shifts every displayed background bound by
exactly δ, and leaves the stored background array and the
normalization divisor (hence the displayed background values)
unchanged. -/
theorem C5_calibration_shift (s : SpectrumState) (δ : ℚ) :
    (set_energy_calibration s (s.energy_calibration + δ)).1 = .ok () ∧
    boundsDisplayed (set_energy_calibration s (s.energy_calibration + δ)).2.1 =
      (boundsDisplayed s).map (fun b => b + δ) ∧
    (set_energy_calibration s (s.energy_calibration + δ)).2.1.background = s.background ∧
    (set_energy_calibration s (s.energy_calibration + δ)).2.1.normalization_divisor =
      s.normalization_divisor := by
  refine ⟨rfl, ?_, rfl, rfl⟩
  simp only [set_energy_calibration, boundsDisplayed, List.map_map]
  congr 1
  funext x
  simp only [Function.comp]
  ring

/-- C9 counterexample: the negative divisor -2 — not a positive value,
which the claim says must be rejected — is accepted: the call succeeds,
stores -2 and switches the normalization type to manual. -/
theorem C9_negative_divisor_accepted :
    set_normalization_divisor spec0 (-2) =
      (.ok (), { spec0 with normalization_type := "manual", normalization_divisor := -2 },
        [("changed-spectrum", some "normalization_divisor")]) ∧
    (-2 : ℚ) < 0 := by
  refine ⟨?_, by norm_num⟩
  norm_num [set_normalization_divisor]

/-- C9 (amended): the manual divisor setter succeeds exactly for the
finite values of nonzero absolute value — so zero is rejected with a
ValueError that leaves divisor and type unchanged, while every other
finite value (positive or negative) is accepted, stored, and switches
the type to manual. -/
theorem C9_divisor_amended (s : SpectrumState) (v : ℚ) :
    (v ≠ 0 → set_normalization_divisor s v =
      (.ok (), { s with normalization_type := "manual", normalization_divisor := v },
        [("changed-spectrum", some "normalization_divisor")])) ∧
    (v = 0 → set_normalization_divisor s v = (.error .valueError, s, [])) := by
  constructor
  · intro h
    simp [set_normalization_divisor, abs_pos.mpr h]
  · intro h
    subst h
    simp [set_normalization_divisor]

/-- C9 witness: at the fixture spectrum, 3 is accepted and 0 rejected. -/
theorem C9_divisor_witness :
    (3 : ℚ) ≠ 0 ∧
    set_normalization_divisor spec0 3 =
      (.ok (), { spec0 with normalization_type := "manual", normalization_divisor := 3 },
        [("changed-spectrum", some "normalization_divisor")]) ∧
    set_normalization_divisor spec0 0 = (.error .valueError, spec0, []) :=
  ⟨by norm_num, (C9_divisor_amended spec0 3).1 (by norm_num),
    (C9_divisor_amended spec0 0).2 rfl⟩

/-- C1 counterexample: on a bus whose effective policy for "sig" is
"ignore" (default "ignore", no "all" override), enqueueing an event
that carries the `noqueue` property does *not* dispatch anything: the
subscriber that exists for "sig" is never called and the bus is left
exactly as it was — the event is dropped before the noqueue test. -/
theorem C1_noqueue_ignored_counterexample :
    enqueue busIgnore evNoqueue = .ok (busIgnore, []) ∧
    (lookupA busIgnore.subscribers "sig").isSome = true ∧
    hasNoqueue evNoqueue = true := by
  refine ⟨?_, rfl, rfl⟩
  rfl

/-- C1 (amended): an event carrying `noqueue` forces immediate
dispatch of its signal's queue in every case *except* when the
per-signal (or default) policy resolves to "ignore" with no truthy
"all" override — then the event is dropped.  In particular noqueue
dispatches immediately under "accumulate" and "fire", and under any
"all" override (even an "ignore" one, which skips the early return). -/
theorem C1_noqueue_dispatch_amended (bus : BusState) (ev : BEvent)
    (h1 : hasNoqueue ev = true)
    (h2 : truthyS (policyAll bus) = true ∨ policyLookup bus ev.signal ≠ some "ignore") :
    enqueue bus ev = fire (pushQueue bus ev) ev.signal := by
  unfold enqueue
  by_cases ht : truthyS (policyAll bus) = true
  · simp [ht, h1]
  · have hni : ¬ policyLookup bus ev.signal = some "ignore" := h2.resolve_left ht
    simp [ht, hni, h1]

/-- C1 witness: under the "accumulate" default, the noqueue event is
dispatched immediately (here: the single subscriber is called with the
event just enqueued). -/
theorem C1_noqueue_dispatch_witness :
    hasNoqueue evNoqueue = true ∧
    policyLookup busAcc evNoqueue.signal ≠ some "ignore" ∧
    enqueue busAcc evNoqueue = fire (pushQueue busAcc evNoqueue) evNoqueue.signal ∧
    (enqueue busAcc evNoqueue).toOption.map (fun r => r.2.map (fun c => c.1)) = some [0] :=
  ⟨rfl, by decide,
    C1_noqueue_dispatch_amended busAcc evNoqueue rfl (Or.inr (by decide)),
    by decide⟩

/-- C2: with peaks named p1 and p2 (and `p2_fwhm = 4.5`), setting
p1's fwhm expression to "p2*3" does not produce 13.5: the rewriting
emits the upper-cased key "P2_fwhm", which does not exist in the pool,
so evaluation fails with NameError and the constraint is rolled back —
`p1_fwhm` keeps its previous value 2.  (The repository's own test and
the spec expect 13.5, so this is a defect of `relation2expr`, which
returns `name.upper()` instead of the sibling's real name.) -/
theorem C2_rewrite_uppercases_key :
    relation2expr c2st peakP1 "p2*3" "fwhm" = .ok "P2_fwhm*3" ∧
    lookupA c2st.pool "P2_fwhm" = none ∧
    lookupA c2st.pool "p2_fwhm" = some (pvP (9/2)) ∧
    (set_constraints c2st peakP1 "fwhm" none none (.q 0) .inf "p2*3").1 = .ok () ∧
    (set_constraints c2st peakP1 "fwhm" none none (.q 0) .inf "p2*3").2.2 =
      ["changed-peak", "changed-peak"] ∧
    (lookupA (set_constraints c2st peakP1 "fwhm" none none (.q 0) .inf "p2*3").2.1.pool
        "p1_fwhm").map Param.value = some 2 := by
  refine ⟨by decide, by decide, by decide, ?_, ?_, ?_⟩ <;> decide

/-- C6 counterexample: setting `background_type` to "tougaard" on the
fixture spectrum raises NotImplementedError but does *not* leave the
spectrum unchanged: the background type has already been set to
"tougaard" when the exception is raised (only the background array is
untouched). -/
theorem C6_tougaard_mutates_type :
    set_background_type spec0 "tougaard" =
      (.error .notImplementedError, { spec0 with background_type := "tougaard" }, []) ∧
    spec0.background_type = "none" := by
  exact ⟨by decide, rfl⟩

/-- C6 (amended): an unknown background type is rejected with a
ValueError and no mutation; a vocabulary value that differs from the
current type is assigned *first* and the background then recomputed
over the current bounds — if the recomputation raises (as "tougaard"
always does on a non-degenerate region), the error propagates with the
type already mutated and the background array unchanged; on success
the background is stored and a changed-spectrum event tagged
"background_type" is emitted. -/
theorem C6_background_type_amended (s : SpectrumState) (v : String) :
    (v ∉ bg_types → set_background_type s v = (.error .valueError, s, [])) ∧
    (∀ er, v ∈ bg_types → s.background_type ≠ v →
      calculate_background v (boundsDisplayed { s with background_type := v })
          (energyDisplayed { s with background_type := v })
          s.intensity = .error er →
      set_background_type s v = (.error er, { s with background_type := v }, [])) ∧
    (∀ bg, v ∈ bg_types → s.background_type ≠ v →
      calculate_background v (boundsDisplayed { s with background_type := v })
          (energyDisplayed { s with background_type := v })
          s.intensity = .ok bg →
      set_background_type s v =
        (.ok (), { s with background_type := v, background := bg },
          [("changed-spectrum", some "background_type")])) := by
  refine ⟨?_, ?_, ?_⟩
  · intro h
    simp [set_background_type, h]
  · intro er h hne hc
    simp [set_background_type, h, hne, hc]
  · intro bg h hne hc
    simp [set_background_type, h, hne, hc]

/-- C6 witness: on the fixture spectrum, "foo" is rejected without
mutation and "linear" recomputes the background and emits the tagged
event. -/
theorem C6_background_type_witness :
    set_background_type spec0 "foo" = (.error .valueError, spec0, []) ∧
    set_background_type spec0 "linear" =
      (.ok (), { spec0 with background_type := "linear", background := [4, 5, 6] },
        [("changed-spectrum", some "background_type")]) :=
  ⟨(C6_background_type_amended spec0 "foo").1 (by decide),
    (C6_background_type_amended spec0 "linear").2.2 [4, 5, 6] (by decide) (by decide)
      (by decide)⟩

/-- C3 counterexample: starting from a state in which P1's fwhm
carries the expression constraint "P2*3" (stored as "P2_fwhm*3"), a
set_constraints call whose rewritten expression fails to evaluate
(here "Q*2", Q undefined) does *not* restore the previous full
constraint tuple: the failing-evaluation path runs (two changed-peak
events), value/vary/min/max come back, but the stored expression is
cleared instead of restored, so the pool differs from its pre-call
state at that alias. -/
theorem C3_rollback_drops_expr :
    lookupA c3st1.pool "P1_fwhm" = some parC3 ∧
    parC3.expr = some "P2_fwhm*3" ∧
    (set_constraints c3st1 peakQ1 "fwhm" none none (.q 0) .inf "Q*2").2.2 =
      ["changed-peak", "changed-peak"] ∧
    lookupA (set_constraints c3st1 peakQ1 "fwhm" none none (.q 0) .inf "Q*2").2.1.pool
        "P1_fwhm" ≠ lookupA c3st1.pool "P1_fwhm" := by
  exact ⟨by decide, rfl, by decide, by decide⟩

/-- C3 (amended): with the alias resolved and the call not an early
no-op, (a) a rewriting failure — in particular the ValueError raised
on a self-reference — propagates with the pool completely untouched;
(b) when the rewritten expression fails to evaluate
(SyntaxError/NameError/TypeError), the call returns normally having
restored value, vary, min and max of that alias while *clearing* its
expression, and leaves every other pool entry unchanged. -/
theorem C3_set_constraints_amended (st : MState) (p : PeakR) (als : String)
    (value : Option ℚ) (varyArg : Option Bool) (mn mx : QInf) (expr : String)
    (key : String) (par : Param)
    (hk : getParamKey st p als = .ok (key, par))
    (hne : expr ≠ "")
    (hch : constraintsChanged ⟨value, varyArg.getD (value.isNone && expr = ""), mn, mx, expr⟩
      (oldConstraints st p par) = true) :
    (relation2expr st p expr als = .error .valueError →
      set_constraints st p als value varyArg mn mx expr = (.error .valueError, st, [])) ∧
    (∀ e' er, relation2expr st p expr als = .ok e' →
      (er = .parseError ∨ er = .nameError ∨ er = .typeError) →
      evalPool (setA st.pool key (paramSetExpr par e')) = .error er →
      set_constraints st p als value varyArg mn mx expr =
        (.ok (),
          { st with pool :=
              (setA st.pool key ⟨par.value, par.vary, par.minB, par.maxB, none⟩) },
          ["changed-peak", "changed-peak"])) := by
  constructor
  · intro hrel
    simp only [set_constraints, hk, hch, Bool.true_eq_false, if_false, if_neg hne, hrel]
  · intro e' er hrel her heval
    have hroll : Param.setAll (paramSetExpr par e')
        { oldConstraints st p par with expr := "" } =
        ⟨par.value, par.vary, par.minB, par.maxB, none⟩ := by
      simp [Param.setAll, paramSetExpr, oldConstraints]
    have hif : (er = PyErr.parseError ∨ er = PyErr.nameError ∨ er = PyErr.typeError) := her
    simp only [set_constraints, hk, hch, Bool.true_eq_false, if_false, if_neg hne, hrel,
      heval, if_pos hif, hroll]

/-- C3 witness: at the concrete state, the failing "Q*2" update rolls
back to the tuple with a cleared expression, and a self-referencing
"P1*2" raises ValueError leaving the state untouched. -/
theorem C3_set_constraints_witness :
    getParamKey c3st1 peakQ1 "fwhm" = .ok ("P1_fwhm", parC3) ∧
    set_constraints c3st1 peakQ1 "fwhm" none none (.q 0) .inf "Q*2" =
      (.ok (),
        { c3st1 with pool :=
            (setA c3st1.pool "P1_fwhm" ⟨parC3.value, parC3.vary, parC3.minB, parC3.maxB, none⟩) },
        ["changed-peak", "changed-peak"]) ∧
    set_constraints c3st1 peakQ1 "fwhm" none none (.q 0) .inf "P1*2" =
      (.error .valueError, c3st1, []) :=
  ⟨by decide,
    (C3_set_constraints_amended c3st1 peakQ1 "fwhm" none none (.q 0) .inf "Q*2"
      "P1_fwhm" parC3 (by decide) (by decide) (by decide)).2 "Q*2" .nameError
      (by decide) (Or.inr (Or.inl rfl)) (by decide),
    (C3_set_constraints_amended c3st1 peakQ1 "fwhm" none none (.q 0) .inf "P1*2"
      "P1_fwhm" parC3 (by decide) (by decide) (by decide)).1 (by decide)⟩

theorem mkEventList_ok (evs : List BEvent) (s : String)
    (hne : evs ≠ []) (hs : ∀ ev ∈ evs, ev.signal = s) :
    ∃ el, mkEventList evs = .ok el := by
  cases evs with
  | nil => exact absurd rfl hne
  | cons e0 t =>
    have hall : ((e0 :: t).all (fun e => e.signal = e0.signal)) = true := by
      apply List.all_eq_true.mpr
      intro e he
      have h1 : e.signal = s := hs e he
      have h0 : e0.signal = s := hs e0 (List.mem_cons_self _ _)
      simp [h1, h0]
    simp only [mkEventList]
    rw [if_pos hall]
    exact ⟨_, rfl⟩

theorem wfBus_signals (bus : BusState) (s : String) (evs : List BEvent)
    (hwf : wfBus bus = true) (hq : lookupA bus.queue s = some evs) :
    ∀ ev ∈ evs, ev.signal = s := by
  intro ev hev
  have hmem := lookupA_mem bus.queue s evs hq
  have := List.all_eq_true.mp hwf (s, evs) hmem
  have := List.all_eq_true.mp this ev hev
  simpa using this

/-- C8: for every well-formed bus and every specific signal, `fire`
never raises; a dispatch (nonempty queue and an existing subscriber
entry) leaves the signal's queue present but empty; and firing with
nothing queued, or with no subscriber entry, is a no-op returning the
bus unchanged with no callbacks invoked. -/
theorem C8_fire_contract (bus : BusState) (s : String)
    (hwf : wfBus bus = true) (hs : s ≠ "all") :
    ∃ bus' calls, fire bus s = .ok (bus', calls) ∧
      (∀ evs, lookupA bus.queue s = some evs → evs ≠ [] →
        (lookupA bus.subscribers s).isSome = true → lookupA bus'.queue s = some []) ∧
      ((lookupA bus.queue s).getD [] = [] → bus' = bus ∧ calls = []) ∧
      (lookupA bus.subscribers s = none → bus' = bus ∧ calls = []) := by
  have hfire : fire bus s = fireOne bus s := by
    unfold fire
    rw [if_neg hs]
  rcases hq : lookupA bus.queue s with _ | evs
  · refine ⟨bus, [], ?_, ?_, fun _ => ⟨rfl, rfl⟩, fun _ => ⟨rfl, rfl⟩⟩
    · rw [hfire]
      unfold fireOne
      simp only [hq]
    · intro evs hevs
      simp at hevs
  · by_cases hevs : evs = []
    · subst hevs
      refine ⟨bus, [], ?_, ?_, fun _ => ⟨rfl, rfl⟩, fun _ => ⟨rfl, rfl⟩⟩
      · rw [hfire]
        unfold fireOne
        simp only [hq]
        rfl
      · intro evs' hevs' hne _
        have h0 : evs' = [] := by simpa using hevs'.symm
        exact absurd h0 hne
    · rcases hsub : lookupA bus.subscribers s with _ | subs
      · refine ⟨bus, [], ?_, ?_, ?_, fun _ => ⟨rfl, rfl⟩⟩
        · rw [hfire]
          unfold fireOne
          simp only [hq, if_neg hevs, hsub]
        · intro evs' hevs' hne hsome
          simp at hsome
        · intro hempty
          exact absurd (by simpa using hempty) hevs
      · obtain ⟨el, hel⟩ := mkEventList_ok evs s hevs (wfBus_signals bus s evs hwf hq)
        refine ⟨{ bus with queue := setA bus.queue s [] },
          (stableSort (fun x y => decide (x.2 ≤ y.2)) subs).map (fun cp => (cp.1, el)),
          ?_, ?_, ?_, ?_⟩
        · rw [hfire]
          unfold fireOne
          simp only [hq, if_neg hevs, hsub, hel]
        · intro evs' hevs' hne hsome
          exact lookupA_setA_self bus.queue s []
        · intro hempty
          exact absurd (by simpa using hempty) hevs
        · intro hnone
          simp at hnone

/-- C8 witness: on a bus with one pending event and three subscribers
of priorities 10, 5, 1, fire succeeds, empties the queue, and the
no-op conclusions hold vacuously. -/
theorem C8_fire_witness :
    wfBus busPend = true ∧ "sig" ≠ "all" ∧
    (∃ bus' calls, fire busPend "sig" = .ok (bus', calls) ∧
      (∀ evs, lookupA busPend.queue "sig" = some evs → evs ≠ [] →
        (lookupA busPend.subscribers "sig").isSome = true →
          lookupA bus'.queue "sig" = some []) ∧
      ((lookupA busPend.queue "sig").getD [] = [] → bus' = busPend ∧ calls = []) ∧
      (lookupA busPend.subscribers "sig" = none → bus' = busPend ∧ calls = [])) :=
  ⟨rfl, by decide, C8_fire_contract busPend "sig" rfl (by decide)⟩

/-- C7 counterexample: the peaks "a" and "a_x" have distinct names,
yet removing "a" deletes "a_x"'s pool entries as well — the pattern
`a_[a-z]+` matches the sibling's keys. -/
theorem C7_sibling_params_deleted :
    peakA.name ≠ peakAX.name ∧
    lookupA c7st.pool "a_x_fwhm" = some (pvP 1) ∧
    (remove_peak c7st peakA).1 = .ok () ∧
    lookupA (remove_peak c7st peakA).2.1.pool "a_x_fwhm" = none := by
  exact ⟨by decide, by decide, by decide, by decide⟩

theorem take_append_underscore : ∀ (a b s : List Char), '_' ∉ a → '_' ∉ b →
    (b ++ '_' :: s).take (a.length + 1) = a ++ ['_'] → a = b := by
  intro a
  induction a with
  | nil =>
    intro b s _ hb htake
    cases b with
    | nil => rfl
    | cons c b' =>
      have hc : c = '_' := by simpa using htake
      refine absurd ?_ hb
      rw [← hc]
      exact List.mem_cons_self c b'
  | cons x a' ih =>
    intro b s ha hb htake
    cases b with
    | nil =>
      have h1 : (([] : List Char) ++ '_' :: s).take ((x :: a').length + 1) =
          '_' :: s.take (a'.length + 1) := by
        simp [List.take_cons]
      rw [h1] at htake
      injection htake with hx _
      refine absurd ?_ ha
      rw [hx]
      exact List.mem_cons_self x a'
    | cons y b' =>
      have h1 : ((y :: b') ++ '_' :: s).take ((x :: a').length + 1) =
          y :: (b' ++ '_' :: s).take (a'.length + 1) := by
        simp [List.take_cons]
      rw [h1] at htake
      injection htake with hxy hrest
      have ha' : '_' ∉ a' := fun h => ha (List.mem_cons_of_mem _ h)
      have hb' : '_' ∉ b' := fun h => hb (List.mem_cons_of_mem _ h)
      rw [hxy, ih b' s ha' hb' hrest]

theorem string_data_triple (p q : String) :
    (p ++ "_" ++ q).data = p.data ++ '_' :: q.data := by
  have h1 : (p ++ "_" ++ q).data = (p ++ "_").data ++ q.data := String.data_append _ _
  have h2 : (p ++ "_").data = p.data ++ ['_'] := String.data_append _ _
  rw [h1, h2, List.append_assoc]
  rfl

theorem noUnderscore_not_mem (p : String) (h : noUnderscore p = true) : '_' ∉ p.data := by
  intro hmem
  have := List.all_eq_true.mp h '_' hmem
  simp at this

theorem alnumName_noUnderscore (s : String) (h : alnumName s = true) :
    noUnderscore s = true := by
  apply List.all_eq_true.mpr
  intro c hc
  have hca := List.all_eq_true.mp h c hc
  simp only [decide_eq_true_eq]
  intro he
  subst he
  exact absurd hca (by decide)

theorem clearMatch_own (name suffix : String) (h : lowerLed suffix = true) :
    clearMatch name (name ++ "_" ++ suffix) = true := by
  have hd : (name ++ "_" ++ suffix).data = (name ++ "_").data ++ suffix.data := by
    rw [string_data_triple, String.data_append]
    simp
  simp only [clearMatch]
  rw [hd, List.take_left, List.drop_left]
  unfold lowerLed at h
  rcases hs : suffix.data with _ | ⟨c, t⟩
  · rw [hs] at h
    simp at h
  · rw [hs] at h
    simpa using h

theorem clearMatch_sibling (p q suffix : String)
    (hp : noUnderscore p = true) (hq : noUnderscore q = true) (hne : q ≠ p) :
    clearMatch p (q ++ "_" ++ suffix) = false := by
  unfold clearMatch
  have hpre : (p ++ "_").data = p.data ++ ['_'] := String.data_append _ _
  have hkey : (q ++ "_" ++ suffix).data = q.data ++ '_' :: suffix.data :=
    string_data_triple q suffix
  have hlen : (p ++ "_").data.length = p.data.length + 1 := by
    rw [hpre]
    simp
  apply Bool.and_eq_false_iff.mpr
  left
  apply decide_eq_false
  intro htake
  rw [hkey, hlen, hpre] at htake
  have heq : p.data = q.data :=
    take_append_underscore p.data q.data suffix.data
      (noUnderscore_not_mem p hp) (noUnderscore_not_mem q hq) htake
  apply hne
  cases p
  cases q
  exact congrArg String.mk heq.symm

/-- C7 (amended): for peaks with pairwise distinct *alphanumeric*
names (ASCII letters and digits only — no underscore and no regex
metacharacter, since the name is interpolated into the deletion
pattern), remove_peak deletes every pool entry keyed by the removed
peak's name, an underscore and a lowercase-letter-led suffix (the form
of every real parameter key), touches no entry belonging to a sibling
peak, and drops the peak from the list.  Outside this name discipline
the clearing pattern `name + "_[a-z]+"` can reach a sibling's keys:
with an underscore in a name as in the counterexample (removing `a`
deletes the keys of `a_x`), or with a metacharacter (removing `p+`
deletes the keys of `pp`, because the pattern `p+_[a-z]+` matches
`pp_fwhm`). -/
theorem C7_remove_peak_amended (st : MState) (p : PeakR)
    (hp : p ∈ st.peaks)
    (hall : ∀ q ∈ st.peaks, alnumName q.name = true) :
    ((remove_peak st p).1 = .ok () ∧
      (remove_peak st p).2.1.peaks = removeFirst st.peaks p) ∧
    (∀ suffix : String, lowerLed suffix = true →
      lookupA (remove_peak st p).2.1.pool (p.name ++ "_" ++ suffix) = none) ∧
    (∀ q ∈ st.peaks, q.name ≠ p.name → ∀ suffix : String,
      lookupA (remove_peak st p).2.1.pool (q.name ++ "_" ++ suffix) =
        lookupA st.pool (q.name ++ "_" ++ suffix)) := by
  have hcont : st.peaks.contains p = true := List.elem_eq_true_of_mem hp
  have hpool : (remove_peak st p).2.1.pool = clear_params st.pool p.name := by
    unfold remove_peak
    rw [hcont]
    rfl
  have hres : (remove_peak st p).1 = .ok () ∧
      (remove_peak st p).2.1.peaks = removeFirst st.peaks p := by
    unfold remove_peak
    rw [hcont]
    exact ⟨rfl, rfl⟩
  refine ⟨hres, ?_, ?_⟩
  · intro suffix hsuf
    rw [hpool]
    unfold clear_params
    rw [lookupA_filter_key (clearMatch p.name) st.pool (p.name ++ "_" ++ suffix)]
    rw [if_pos (clearMatch_own p.name suffix hsuf)]
  · intro q hqmem hqne suffix
    rw [hpool]
    unfold clear_params
    rw [lookupA_filter_key (clearMatch p.name) st.pool (q.name ++ "_" ++ suffix)]
    rw [if_neg]
    rw [clearMatch_sibling p.name q.name suffix
      (alnumName_noUnderscore p.name (hall p hp))
      (alnumName_noUnderscore q.name (hall q hqmem)) hqne]
    simp

/-- C7 witness: with peaks p1 and p2 (alphanumeric names), removing
p1 deletes p1_fwhm and leaves p2_fwhm untouched. -/
theorem C7_remove_peak_witness :
    peakP1 ∈ c2st.peaks ∧
    lookupA (remove_peak c2st peakP1).2.1.pool "p1_fwhm" = none ∧
    lookupA (remove_peak c2st peakP1).2.1.pool "p2_fwhm" = lookupA c2st.pool "p2_fwhm" ∧
    (remove_peak c2st peakP1).2.1.peaks = removeFirst c2st.peaks peakP1 :=
  ⟨by decide,
    by
      have h := (C7_remove_peak_amended c2st peakP1 (by decide) (by decide)).2.1
        "fwhm" (by decide)
      simpa using h,
    by
      have h := (C7_remove_peak_amended c2st peakP1 (by decide) (by decide)).2.2
        ⟨"p2", .pseudoVoigt⟩ (by decide) (by decide) "fwhm"
      simpa using h,
    (C7_remove_peak_amended c2st peakP1 (by decide) (by decide)).1.2⟩

theorem mem_insSorted {α : Type} (le : α → α → Bool) (x a : α) (l : List α) :
    a ∈ insSorted le x l ↔ a = x ∨ a ∈ l := by
  induction l with
  | nil => simp [insSorted]
  | cons y t ih =>
    rw [insSorted]
    by_cases h : le x y
    · rw [if_pos h]
      simp [List.mem_cons]
      try tauto
    · rw [if_neg h]
      simp [List.mem_cons, ih]
      try tauto

theorem pairwise_insSorted {α : Type} (le : α → α → Bool)
    (htot : ∀ a b, le a b = true ∨ le b a = true)
    (htrans : ∀ a b c, le a b = true → le b c = true → le a c = true)
    (x : α) (l : List α) (hl : l.Pairwise (fun a b => le a b = true)) :
    (insSorted le x l).Pairwise (fun a b => le a b = true) := by
  induction l with
  | nil => simp [insSorted]
  | cons y t ih =>
    rcases List.pairwise_cons.mp hl with ⟨hy, ht⟩
    by_cases h : le x y
    · rw [insSorted, if_pos h]
      apply List.pairwise_cons.mpr
      refine ⟨?_, hl⟩
      intro b hb
      cases hb with
      | head => exact h
      | tail _ hb' => exact htrans x y b h (hy b hb')
    · rw [insSorted, if_neg h]
      apply List.pairwise_cons.mpr
      constructor
      · intro b hb
        rcases (mem_insSorted le x b t).mp hb with hbx | hbt
        · subst hbx
          rcases htot y b with hyb | hby
          · exact hyb
          · exact absurd hby h
        · exact hy b hbt
      · exact ih ht

theorem pairwise_stableSort {α : Type} (le : α → α → Bool)
    (htot : ∀ a b, le a b = true ∨ le b a = true)
    (htrans : ∀ a b c, le a b = true → le b c = true → le a c = true)
    (l : List α) : (stableSort le l).Pairwise (fun a b => le a b = true) := by
  induction l with
  | nil => simp [stableSort]
  | cons x t ih => exact pairwise_insSorted le htot htrans x (stableSort le t) ih

theorem sorted_make_increasing (e : List ℚ) (i : NPArray) :
    ((make_increasing e i).1).Pairwise (· ≤ ·) := by
  unfold make_increasing argsortQ
  have hsort := pairwise_stableSort (fun a b => decide (e.getD a 0 ≤ e.getD b 0))
    (fun a b => by
      rcases le_total (e.getD a 0) (e.getD b 0) with h | h
      · exact Or.inl (by simpa using h)
      · exact Or.inr (by simpa using h))
    (fun a b c hab hbc => by
      simp only [decide_eq_true_eq] at hab hbc ⊢
      exact le_trans hab hbc)
    (List.range e.length)
  exact List.Pairwise.map _ (fun a b h => by simpa using h) hsort

theorem npDiff_cons₂ (a b : ℚ) (t : List ℚ) :
    npDiff (a :: b :: t) = (b - a) :: npDiff (b :: t) := rfl

theorem mem_npDiff_nonneg : ∀ (l : List ℚ), List.Chain' (· ≤ ·) l →
    ∀ d ∈ npDiff l, 0 ≤ d
  | [], _, d, hd => by simp [npDiff] at hd
  | [_], _, d, hd => by simp [npDiff] at hd
  | a :: b :: t, hc, d, hd => by
    rw [npDiff_cons₂] at hd
    rcases List.chain'_cons.mp hc with ⟨hab, hct⟩
    rcases List.mem_cons.mp hd with h | h
    · subst h
      linarith
    · exact mem_npDiff_nonneg (b :: t) hct d h

theorem chain_lt_of_npDiff_pos : ∀ (l : List ℚ),
    (∀ d ∈ npDiff l, 0 < d) → List.Chain' (· < ·) l
  | [], _ => List.chain'_nil
  | [_], _ => List.chain'_singleton _
  | a :: b :: t, h => by
    apply List.chain'_cons.mpr
    constructor
    · have := h (b - a) (by rw [npDiff_cons₂]; exact List.mem_cons_self _ _)
      linarith
    · exact chain_lt_of_npDiff_pos (b :: t)
        (fun d hd => h d (by rw [npDiff_cons₂]; exact List.mem_cons_of_mem _ hd))

theorem sum_npDiff : ∀ (l : List ℚ), l ≠ [] →
    (npDiff l).sum = l.getLastD 0 - l.headD 0
  | [], h => absurd rfl h
  | [a], _ => by simp [npDiff]
  | a :: b :: t, _ => by
    rw [npDiff_cons₂]
    rw [List.sum_cons]
    rw [sum_npDiff (b :: t) (by simp)]
    simp [List.getLastD_cons]

theorem mem_insUniq (x y : ℚ) (l : List ℚ) :
    y ∈ insUniq x l ↔ y = x ∨ y ∈ l := by
  induction l with
  | nil => simp [insUniq]
  | cons a t ih =>
    rw [insUniq]
    by_cases h1 : x < a
    · rw [if_pos h1]
      simp [List.mem_cons]
      try tauto
    · rw [if_neg h1]
      by_cases h2 : x = a
      · subst h2
        rw [if_pos rfl]
        simp [List.mem_cons]
        try tauto
      · rw [if_neg h2]
        simp [List.mem_cons, ih]
        try tauto

theorem mem_npUnique (y : ℚ) (l : List ℚ) : y ∈ npUnique l ↔ y ∈ l := by
  induction l with
  | nil => simp [npUnique]
  | cons a t ih =>
    have h : npUnique (a :: t) = insUniq a (npUnique t) := rfl
    rw [h, mem_insUniq, ih]
    simp [List.mem_cons]

theorem chain_insUniq (x : ℚ) : ∀ (l : List ℚ), List.Chain' (· < ·) l →
    List.Chain' (· < ·) (insUniq x l)
  | [], _ => List.chain'_singleton _
  | a :: t, hc => by
    rw [insUniq]
    by_cases h1 : x < a
    · rw [if_pos h1]
      exact List.chain'_cons.mpr ⟨h1, hc⟩
    · rw [if_neg h1]
      by_cases h2 : x = a
      · rw [if_pos h2]
        exact hc
      · rw [if_neg h2]
        have hax : a < x := lt_of_le_of_ne (not_lt.mp h1) (fun h => h2 h.symm)
        rcases List.chain'_cons'.mp hc with ⟨hhead, hct⟩
        apply List.chain'_cons'.mpr
        refine ⟨?_, chain_insUniq x t hct⟩
        intro z hz
        cases t with
        | nil =>
          simp [insUniq] at hz
          exact hz ▸ hax
        | cons b t' =>
          rw [insUniq] at hz
          by_cases hb1 : x < b
          · rw [if_pos hb1] at hz
            simp at hz
            exact hz ▸ hax
          · rw [if_neg hb1] at hz
            by_cases hb2 : x = b
            · rw [if_pos hb2] at hz
              simp at hz
              exact hz ▸ hhead b rfl
            · rw [if_neg hb2] at hz
              simp at hz
              exact hz ▸ hhead b rfl

theorem chain_npUnique (l : List ℚ) : List.Chain' (· < ·) (npUnique l) := by
  induction l with
  | nil => exact List.chain'_nil
  | cons a t ih => exact chain_insUniq a (npUnique t) ih

theorem npUnique_head_le (l : List ℚ) (s0 : ℚ) (rest : List ℚ)
    (hu : npUnique l = s0 :: rest) (x : ℚ) (hx : x ∈ l) : s0 ≤ x := by
  have hmem : x ∈ npUnique l := (mem_npUnique x l).mpr hx
  rw [hu] at hmem
  rcases List.mem_cons.mp hmem with h | h
  · exact le_of_eq h.symm
  · have hc := chain_npUnique l
    rw [hu] at hc
    have hp : (s0 :: rest).Pairwise (· < ·) :=
      List.chain'_iff_pairwise.mp hc
    exact le_of_lt ((List.pairwise_cons.mp hp).1 x h)

theorem foldl_min_const (a : ℚ) : ∀ (t : List ℚ), (∀ x ∈ t, a ≤ x) → t.foldl min a = a
  | [], _ => rfl
  | b :: t', h => by
    rw [List.foldl_cons]
    have hab : a ≤ b := h b (List.mem_cons_self _ _)
    rw [min_eq_left hab]
    exact foldl_min_const a t' (fun x hx => h x (List.mem_cons_of_mem _ hx))

theorem npMinQ_sorted (l : List ℚ) (hs : List.Chain' (· ≤ ·) l) (hne : l ≠ []) :
    npMinQ l = l.headD 0 := by
  cases l with
  | nil => exact absurd rfl hne
  | cons a t =>
    have hp := List.chain'_iff_pairwise.mp hs
    have hall : ∀ x ∈ t, a ≤ x := (List.pairwise_cons.mp hp).1
    unfold npMinQ
    simp only [List.headD_cons, List.foldl_cons, min_self]
    exact foldl_min_const a t hall

theorem foldl_max_sorted : ∀ (t : List ℚ) (a : ℚ), List.Chain' (· ≤ ·) (a :: t) →
    t.foldl max a = (a :: t).getLastD 0
  | [], a, _ => by simp
  | b :: t', a, hc => by
    rw [List.foldl_cons]
    rcases List.chain'_cons.mp hc with ⟨hab, hct⟩
    rw [max_eq_right hab]
    rw [foldl_max_sorted t' b hct]
    simp [List.getLastD_cons]

theorem npMaxQ_sorted (l : List ℚ) (hs : List.Chain' (· ≤ ·) l) (hne : l ≠ []) :
    npMaxQ l = l.getLastD 0 := by
  cases l with
  | nil => exact absurd rfl hne
  | cons a t =>
    unfold npMaxQ
    simp only [List.headD_cons, List.foldl_cons, max_self]
    exact foldl_max_sorted t a hs

theorem linspaceQ_length (a b : ℚ) (n : ℕ) : (linspaceQ a b n).length = n := by
  unfold linspaceQ
  rw [List.length_map, List.length_range]

theorem linspaceQ_getElem (a b : ℚ) (n i : ℕ) (h : i < (linspaceQ a b n).length) :
    (linspaceQ a b n)[i] = a + (b - a) * i / ((n : ℚ) - 1) := by
  unfold linspaceQ
  rw [List.getElem_map]
  rw [List.getElem_range]

theorem chain_lt_linspaceQ (a b : ℚ) (n : ℕ) (hab : a < b) (hn : 2 ≤ n) :
    List.Chain' (· < ·) (linspaceQ a b n) := by
  apply List.chain'_iff_get.mpr
  intro i h
  rw [linspaceQ_length] at h
  have hi1 : i < (linspaceQ a b n).length := by
    rw [linspaceQ_length]
    omega
  have hi2 : i + 1 < (linspaceQ a b n).length := by
    rw [linspaceQ_length]
    omega
  have e1 : (linspaceQ a b n).get ⟨i, hi1⟩ = a + (b - a) * i / ((n : ℚ) - 1) := by
    rw [List.get_eq_getElem]
    exact linspaceQ_getElem a b n i hi1
  have e2 : (linspaceQ a b n).get ⟨i + 1, hi2⟩ = a + (b - a) * (i + 1 : ℕ) / ((n : ℚ) - 1) := by
    rw [List.get_eq_getElem]
    exact linspaceQ_getElem a b n (i + 1) hi2
  rw [e1, e2]
  have hden : (0 : ℚ) < (n : ℚ) - 1 := by
    have : (2 : ℚ) ≤ (n : ℚ) := by exact_mod_cast hn
    linarith
  have hnum : (b - a) * i < (b - a) * ((i : ℚ) + 1) := by
    have hba : (0 : ℚ) < b - a := by linarith
    have : (i : ℚ) < (i : ℚ) + 1 := by linarith
    exact mul_lt_mul_of_pos_left this hba
  have hcast : ((i + 1 : ℕ) : ℚ) = (i : ℚ) + 1 := by push_cast; ring
  rw [hcast]
  have := (div_lt_div_iff_of_pos_right hden).mpr hnum
  linarith

theorem npDiff_length (l : List ℚ) : (npDiff l).length = l.length - 1 := by
  simp [npDiff]

theorem npDiff_get (l : List ℚ) (i : ℕ) (h : i < (npDiff l).length) :
    ∃ (h1 : i + 1 < l.length) (h2 : i < l.length),
      (npDiff l).get ⟨i, h⟩ = l.get ⟨i + 1, h1⟩ - l.get ⟨i, h2⟩ := by
  have hlen := npDiff_length l
  have h1 : i + 1 < l.length := by omega
  have h2 : i < l.length := by omega
  refine ⟨h1, h2, ?_⟩
  simp only [List.get_eq_getElem]
  unfold npDiff
  rw [List.getElem_zipWith]
  congr 1
  rw [List.getElem_tail]

theorem mem_npDiff_linspaceQ (a b : ℚ) (n : ℕ) (d : ℚ)
    (hd : d ∈ npDiff (linspaceQ a b n)) : d = (b - a) / ((n : ℚ) - 1) := by
  obtain ⟨⟨i, hi⟩, he⟩ := List.mem_iff_get.mp hd
  obtain ⟨h1, h2, hval⟩ := npDiff_get (linspaceQ a b n) i hi
  rw [hval] at he
  have e1 : (linspaceQ a b n).get ⟨i + 1, h1⟩ = a + (b - a) * ((i + 1 : ℕ) : ℚ) / ((n : ℚ) - 1) := by
    simp only [List.get_eq_getElem]
    exact linspaceQ_getElem a b n (i + 1) h1
  have e2 : (linspaceQ a b n).get ⟨i, h2⟩ = a + (b - a) * (i : ℚ) / ((n : ℚ) - 1) := by
    simp only [List.get_eq_getElem]
    exact linspaceQ_getElem a b n i h2
  rw [e1, e2] at he
  rw [← he]
  push_cast
  ring

theorem npUnique_const (c : ℚ) : ∀ (dl : List ℚ), (∀ d ∈ dl, d = c) →
    npUnique dl = [] ∨ npUnique dl = [c]
  | [], _ => Or.inl rfl
  | x :: t, h => by
    have hx : x = c := h x (List.mem_cons_self _ _)
    have ih := npUnique_const c t (fun d hd => h d (List.mem_cons_of_mem _ hd))
    have hu : npUnique (x :: t) = insUniq x (npUnique t) := rfl
    rcases ih with h0 | h0
    · right
      rw [hu, h0, hx]
      rfl
    · right
      rw [hu, h0, hx]
      simp [insUniq]

theorem is_equidistant_const (l : List ℚ) (c : ℚ)
    (h : ∀ d ∈ npDiff l, d = c) : is_equidistant l = true := by
  unfold is_equidistant
  rcases npUnique_const c (npDiff l) h with h0 | h0
  · rw [h0]
  · rw [h0]
    simp

theorem pyInt_toNat_ge_two (x : ℚ) (h : 2 < x) : 2 ≤ (pyInt x).toNat := by
  have h0 : 0 ≤ x := by linarith
  unfold pyInt
  rw [if_pos h0]
  have h2 : (2 : ℤ) ≤ ⌊x⌋ := Int.le_floor.mpr (by exact_mod_cast h.le)
  omega

theorem sum_ge_of_two_mem (dl : List ℚ) (s0 s1 : ℚ)
    (hall : ∀ d ∈ dl, s0 ≤ d) (h0 : 0 < s0) (h1 : s1 ∈ dl) (hne : s1 ≠ s0)
    (hs0 : s0 ∈ dl) : s0 + s1 ≤ dl.sum := by
  obtain ⟨u, v, huv⟩ := List.append_of_mem h1
  subst huv
  rw [List.sum_append, List.sum_cons]
  have hunn : 0 ≤ u.sum :=
    List.sum_nonneg (fun d hd => le_trans h0.le (hall d (List.mem_append_left _ hd)))
  have hvnn : 0 ≤ v.sum :=
    List.sum_nonneg (fun d hd =>
      le_trans h0.le (hall d (List.mem_append_right _ (List.mem_cons_of_mem _ hd))))
  rcases List.mem_append.mp hs0 with hu | hv
  · have hs0u : s0 ≤ u.sum :=
      List.single_le_sum (fun d hd => le_trans h0.le (hall d (List.mem_append_left _ hd)))
        s0 hu
    linarith
  · rcases List.mem_cons.mp hv with he | hv'
    · exact absurd he.symm hne
    · have hs0v : s0 ≤ v.sum :=
        List.single_le_sum (fun d hd =>
          le_trans h0.le (hall d (List.mem_append_right _ (List.mem_cons_of_mem _ hd))))
          s0 hv'
      linarith

theorem qclose_self (s : ℚ) : qclose s s = true := by
  unfold qclose
  apply decide_eq_true
  have h1 : (0 : ℚ) < atol := by norm_num [atol]
  have h2 : (0 : ℚ) ≤ rtol * |s| := mul_nonneg (by norm_num [rtol]) (abs_nonneg s)
  simp
  linarith

theorem make_equidistant_sorted (e : List ℚ) (i : NPArray) (e2 : List ℚ) (i2 : NPArray)
    (hs : List.Chain' (· ≤ ·) e)
    (h : make_equidistant e i = .ok (e2, i2)) :
    List.Chain' (· < ·) e2 ∧ is_equidistant e2 = true := by
  unfold make_equidistant at h
  rcases hu : npUnique (npDiff e) with _ | ⟨s0, rest⟩
  · simp only [hu] at h
    simp at h
  · simp only [hu] at h
    by_cases hq0 : qclose 0 s0 = true
    · rw [if_pos hq0] at h
      simp at h
    · rw [if_neg hq0] at h
      have hs0mem : s0 ∈ npDiff e :=
        (mem_npUnique s0 (npDiff e)).mp (hu ▸ List.mem_cons_self _ _)
      have hs0nn : 0 ≤ s0 := mem_npDiff_nonneg e hs s0 hs0mem
      have hs0pos : 0 < s0 := by
        have h1 : ¬ (|0 - s0| ≤ atol + rtol * |s0|) := by simpa [qclose] using hq0
        have habs : |(0 : ℚ) - s0| = s0 := by
          rw [zero_sub, abs_neg, abs_of_nonneg hs0nn]
        rw [habs, abs_of_nonneg hs0nn] at h1
        have h2 : (0 : ℚ) < atol := by norm_num [atol]
        have h3 : (0 : ℚ) ≤ rtol * s0 := mul_nonneg (by norm_num [rtol]) hs0nn
        push_neg at h1
        linarith
      have halldiff : ∀ d ∈ npDiff e, s0 ≤ d := fun d hd =>
        npUnique_head_le (npDiff e) s0 rest hu d hd
      have hchain : List.Chain' (· < ·) e :=
        chain_lt_of_npDiff_pos e (fun d hd => lt_of_lt_of_le hs0pos (halldiff d hd))
      by_cases hall : ((s0 :: rest).all (fun s => qclose s s0)) = true
      · rw [if_pos hall] at h
        simp only [Except.ok.injEq, Prod.mk.injEq] at h
        rw [← h.1]
        constructor
        · exact hchain
        · unfold is_equidistant
          rw [hu]
          have h2 : qclose s0 s0 = true ∧ rest.all (fun s => qclose s s0) = true := by
            simpa [List.all_cons] using hall
          exact h2.2
      · rw [if_neg hall] at h
        have hene : e ≠ [] := by
          intro he0
          rw [he0] at hs0mem
          simp [npDiff] at hs0mem
        have hlo := npMinQ_sorted e hs hene
        have hhi := npMaxQ_sorted e hs hene
        have hsum : (npDiff e).sum = npMaxQ e - npMinQ e := by
          rw [hlo, hhi]
          exact sum_npDiff e hene
        obtain ⟨s1, hs1mem, hs1far⟩ : ∃ s1 ∈ s0 :: rest, ¬ qclose s1 s0 = true := by
          by_contra hc
          push_neg at hc
          exact hall (List.all_eq_true.mpr hc)
        have hs1ne : s1 ≠ s0 := by
          intro he
          rw [he] at hs1far
          exact hs1far (qclose_self s0)
        have hs1diff : s1 ∈ npDiff e := (mem_npUnique s1 (npDiff e)).mp (hu ▸ hs1mem)
        have hbound : s0 + s1 ≤ (npDiff e).sum :=
          sum_ge_of_two_mem (npDiff e) s0 s1 halldiff hs0pos hs1diff hs1ne hs0mem
        have hs1gt : s0 < s1 := lt_of_le_of_ne (halldiff s1 hs1diff) (Ne.symm hs1ne)
        have htwo : 2 < (npMaxQ e - npMinQ e) / s0 := by
          rw [lt_div_iff₀ hs0pos]
          rw [← hsum]
          linarith
        have hsamples : 2 ≤ (pyInt ((npMaxQ e - npMinQ e) / s0)).toNat :=
          pyInt_toNat_ge_two _ htwo
        have hlohi : npMinQ e < npMaxQ e := by
          have : 0 < npMaxQ e - npMinQ e := by
            rw [← hsum]
            linarith
          linarith
        rcases hni : npInterp
            (linspaceQ (npMinQ e) (npMaxQ e) ((pyInt ((npMaxQ e - npMinQ e) / s0)).toNat))
            e i with er | si
        · simp only [hni] at h
          simp at h
        · simp only [hni, Except.ok.injEq, Prod.mk.injEq] at h
          rw [← h.1]
          constructor
          · exact chain_lt_linspaceQ _ _ _ hlohi hsamples
          · exact is_equidistant_const _ _ (fun d hd => mem_npDiff_linspaceQ _ _ _ d hd)

theorem init_ok_energy (energy intensity : NPArray) (st : SpectrumState)
    (h : Spectrum.init energy intensity = .ok st) :
    List.Chain' (· < ·) st.energy ∧ is_equidistant st.energy = true := by
  unfold Spectrum.init at h
  rcases hle : energy.pyLen with e1 | lenE
  · simp only [hle] at h
    simp at h
  · rcases hli : intensity.pyLen with e2 | lenI
    · simp only [hle, hli] at h
      simp at h
    · simp only [hle, hli] at h
      by_cases hcond : lenE ≠ lenI ∨ energy.ndim ≠ 1
      · rw [if_pos hcond] at h
        simp at h
      · rw [if_neg hcond] at h
        have hsorted : List.Chain' (· ≤ ·) (make_increasing energy.data intensity).1 :=
          (sorted_make_increasing energy.data intensity).chain'
        rcases hme : make_equidistant (make_increasing energy.data intensity).1
            (make_increasing energy.data intensity).2 with er | p2
        · simp only [hme] at h
          simp at h
        · obtain ⟨e2, i2⟩ := p2
          have hmain := make_equidistant_sorted (make_increasing energy.data intensity).1
            (make_increasing energy.data intensity).2 e2 i2 hsorted hme
          simp only [hme] at h
          have hen : st.energy = e2 := by
            simp only [Except.ok.injEq] at h
            rw [← h]
          rw [hen]
          exact hmain

/-- C4 counterexample: a 2-by-2 intensity array (dimension 2) paired
with a 1-D energy of the same `len` is accepted by the constructor —
only the energy array's dimensionality is validated, so "arrays of
dimension other than one fail with a validation error" is false for
the intensity array. -/
theorem C4_intensity_ndim_unchecked :
    c4intensity.ndim = 2 ∧
    Spectrum.init c4energy c4intensity =
      .ok ⟨[1, 2], [1, 2, 3, 4], [0, 0], "none", [], 0, "none", 1⟩ := by
  exact ⟨rfl, by decide⟩

/-- C4 (amended): every accepted construction stores a strictly
increasing raw energy array that is equidistant within the `np.isclose`
tolerance; arrays of unequal `len` are rejected with ValueError, an
energy array of dimension other than one is rejected (ValueError; a
0-dimensional energy fails at `len()` with TypeError); the intensity
array's dimensionality is not validated. -/
theorem C4_spectrum_init_amended :
    (∀ (energy intensity : NPArray) (st : SpectrumState),
      Spectrum.init energy intensity = .ok st →
      List.Chain' (· < ·) st.energy ∧ is_equidistant st.energy = true) ∧
    (∀ (energy intensity : NPArray) (lenE lenI : ℕ),
      energy.pyLen = .ok lenE → intensity.pyLen = .ok lenI → lenE ≠ lenI →
      Spectrum.init energy intensity = .error .valueError) ∧
    (∀ (energy intensity : NPArray) (lenE lenI : ℕ),
      energy.pyLen = .ok lenE → intensity.pyLen = .ok lenI → energy.ndim ≠ 1 →
      Spectrum.init energy intensity = .error .valueError) ∧
    (∀ (energy intensity : NPArray), energy.ndim = 0 →
      Spectrum.init energy intensity = .error .typeError) := by
  refine ⟨init_ok_energy, ?_, ?_, ?_⟩
  · intro energy intensity lenE lenI hle hli hne
    unfold Spectrum.init
    simp only [hle, hli]
    rw [if_pos (Or.inl hne)]
  · intro energy intensity lenE lenI hle hli hnd
    unfold Spectrum.init
    simp only [hle, hli]
    rw [if_pos (Or.inr hnd)]
  · intro energy intensity hnd
    have hsh : energy.shape = [] := by
      unfold NPArray.ndim at hnd
      exact List.length_eq_zero.mp hnd
    have hle : energy.pyLen = .error .typeError := by
      unfold NPArray.pyLen
      rw [hsh]
    unfold Spectrum.init
    simp only [hle]

/-- C4 witness: the fixture arrays are accepted and produce the
strictly increasing, equidistant energy `[1, 2, 3]`; unequal lengths
and a 2-D energy give ValueError, a 0-d energy TypeError. -/
theorem C4_spectrum_init_witness :
    (List.Chain' (· < ·) spec0.energy ∧ is_equidistant spec0.energy = true) ∧
    Spectrum.init ⟨[3], [1, 2, 3]⟩ ⟨[2], [1, 2]⟩ = .error .valueError ∧
    Spectrum.init ⟨[2, 2], [1, 2, 3, 4]⟩ ⟨[2], [1, 2]⟩ = .error .valueError ∧
    Spectrum.init ⟨[], []⟩ ⟨[3], [1, 2, 3]⟩ = .error .typeError :=
  ⟨C4_spectrum_init_amended.1 (NPArray.of1D [1, 2, 3]) (NPArray.of1D [4, 5, 6]) spec0
      (by decide),
    C4_spectrum_init_amended.2.1 ⟨[3], [1, 2, 3]⟩ ⟨[2], [1, 2]⟩ 3 2 rfl rfl (by decide),
    C4_spectrum_init_amended.2.2.1 ⟨[2, 2], [1, 2, 3, 4]⟩ ⟨[2], [1, 2]⟩ 2 2 rfl rfl
      (by decide),
    C4_spectrum_init_amended.2.2.2 ⟨[], []⟩ ⟨[3], [1, 2, 3]⟩ rfl⟩

end GXPS
